import Mathlib

/-!
Verification development for the subtitle rendering repository
(`subtitle_core.py`, `srt_tools.py`, `app.py`).

Modelling conventions:
* Python strings are `List Char`; Python float seconds and pixel widths are `ℚ`.
* Font measurement (`ImageDraw.textlength`) is an opaque external capability and
  is modelled as a function `List Char → ℚ` supplied as a parameter; a real
  font measure is nonnegative and measures `""` as `0`.
* `int(x)` on a Python float is truncation toward zero, modelled by `pyInt`.
* Fallible Python code (code that may raise) returns `Except String _`.
-/

/-- A transcript word (`{"word": w.word, "start": w.start, "end": w.end}`,
`subtitle_core.py` line 73). -/
structure Word where
  word : List Char
  start : ℚ
  «end» : ℚ
deriving DecidableEq

/-- A transcript segment (`{"start": seg.start, "end": seg.end, "words": [...]}`,
`subtitle_core.py` lines 71-76). -/
structure Segment where
  start : ℚ
  «end» : ℚ
  words : List Word
deriving DecidableEq

/-- Python `str.upper()` (ASCII-adequate model). -/
def pyUpper (s : List Char) : List Char := s.map Char.toUpper

/-- Python `str.lower()` (ASCII-adequate model). -/
def pyLower (s : List Char) : List Char := s.map Char.toLower

/-- Worker for `pyTitle`: the Bool records whether the previous character was
a letter (Python `str.title()` uppercases the first letter of each run of
letters and lowercases the rest of the run). -/
def pyTitleGo : Bool → List Char → List Char
  | _, [] => []
  | prevAlpha, c :: rest =>
    (if c.isAlpha then (if prevAlpha then c.toLower else c.toUpper) else c) ::
      pyTitleGo c.isAlpha rest

/-- Python `str.title()` (ASCII-adequate model). -/
def pyTitle (s : List Char) : List Char := pyTitleGo false s

/-- `apply_case` from `subtitle_core.py` lines 167-175. -/
def apply_case (wordText : List Char) (caseOption : String) : List Char :=
  if caseOption = "UPPERCASE" then pyUpper wordText
  else if caseOption = "lowercase" then pyLower wordText
  else if caseOption = "Title Case" then pyTitle wordText
  else wordText

/-- `is_active_word = (word_data["start"] <= t <= word_data["end"])`
(`subtitle_core.py` lines 204, 229, 271, 280). -/
def is_active_word (w : Word) (t : ℚ) : Bool :=
  decide (w.start ≤ t ∧ t ≤ w.«end»)

/-- The width used for a word while wrapping at render time `t`
(`subtitle_core.py` lines 203-207): the case transform is applied, then the
word is measured with the active font if the word is active at `t`, else with
the normal font.  `normalM`/`activeM` are the two fonts' measure functions. -/
def wordWidthAt (normalM activeM : List Char → ℚ) (caseOption : String) (t : ℚ) (w : Word) : ℚ :=
  if is_active_word w t then activeM (apply_case w.word caseOption)
  else normalM (apply_case w.word caseOption)

/-- The greedy wrap loop of `subtitle_core.py` lines 202-219, one step per
word.  State: `acc` = `wrapped_lines_data`, `cur` = `current_line_words_data`,
`curW` = `current_line_width`.  `space_width` is added only when
`current_line_width` is truthy (nonzero), exactly as in the source. -/
def wrapLoop (measure : Word → ℚ) (spaceW maxW : ℚ) :
    List Word → List (List Word) → List Word → ℚ → List (List Word) × List Word × ℚ
  | [], acc, cur, curW => (acc, cur, curW)
  | w :: ws, acc, cur, curW =>
    let wW := measure w
    let sW := if curW ≠ 0 then spaceW else 0
    if curW ≠ 0 ∧ maxW < curW + sW + wW then
      wrapLoop measure spaceW maxW ws (acc ++ [cur]) [w] wW
    else
      wrapLoop measure spaceW maxW ws acc (cur ++ [w]) (curW + sW + wW)

/-- The full wrap of `subtitle_core.py` lines 191-222: run the loop from the
empty state, then push the trailing nonempty current line
(`if current_line_words_data: wrapped_lines_data.append(...)`). -/
def wrapWords (measure : Word → ℚ) (spaceW maxW : ℚ) (words : List Word) : List (List Word) :=
  let r := wrapLoop measure spaceW maxW words [] [] 0
  if r.2.1 ≠ [] then r.1 ++ [r.2.1] else r.1

/-- Wrapping as `make_frame` performs it at render time `t`: per-word widths
via `wordWidthAt`, and `space_width = textlength(" ", normal_font)`
(`subtitle_core.py` line 208). -/
def wrapAtTime (normalM activeM : List Char → ℚ) (caseOption : String) (maxW t : ℚ)
    (words : List Word) : List (List Word) :=
  wrapWords (wordWidthAt normalM activeM caseOption t) (normalM [' ']) maxW words

/-- Measured width of a rendered line: sum of the word widths plus one space
width between each pair of adjacent words (the quantity named in the spec's
wrap-correctness property). -/
def lineWidth (measure : Word → ℚ) (spaceW : ℚ) (line : List Word) : ℚ :=
  (line.map measure).sum + ((line.length : ℚ) - 1) * spaceW

/-- A produced line is well formed when it is nonempty and either fits in
`maxW` or is a single word that is itself wider than `maxW`. -/
def goodLine (measure : Word → ℚ) (spaceW maxW : ℚ) (line : List Word) : Prop :=
  line ≠ [] ∧ (lineWidth measure spaceW line ≤ maxW ∨ ∃ w, line = [w] ∧ maxW < measure w)

/-- A possible font measure: the empty string measures 0 (as in every real
font, `textlength("") = 0`) and every other string measures 10. -/
def fontA (s : List Char) : ℚ := if s = [] then 0 else 10

/-- A possible font measure: every string measures 10. -/
def fontB (_ : List Char) : ℚ := 10

/-- A possible normal-font measure: the space measures 10, other strings 50. -/
def fontNormalC2 (s : List Char) : ℚ := if s = [' '] then 10 else 50

/-- A possible active-font measure (a larger font): every string measures 120. -/
def fontActiveC2 (_ : List Char) : ℚ := 120

/-- Two-word segment used in the wrap counterexamples: word "aa" spoken on
[0,1], word "bb" on [3,4], segment span [0,4]. -/
def segC2 : Segment :=
  ⟨0, 4, [⟨['a','a'], 0, 1⟩, ⟨['b','b'], 3, 4⟩]⟩

/-- The per-segment liveness test `seg["start"] <= t <= seg["end"]` of
`make_frame` (`subtitle_core.py` line 190). -/
def segLive (seg : Segment) (t : ℚ) : Bool :=
  decide (seg.start ≤ t ∧ t ≤ seg.«end»)

/-- The segment `make_frame` renders at time `t`: the `for`/`break` loop over
the transcript (`subtitle_core.py` lines 189-190 and 332) uses the first
segment whose interval contains `t`. -/
def selectedSegment (transcript : List Segment) (t : ℚ) : Option Segment :=
  transcript.find? (fun seg => segLive seg t)

/-- The active flags `make_frame` assigns to the words of the rendered
segment (`subtitle_core.py` lines 278-288): each word is styled as active
exactly when its own interval contains `t`, independently of the others. -/
def activeFlags (seg : Segment) (t : ℚ) : List Bool :=
  seg.words.map (fun w => is_active_word w t)

/-- Modelled from the spec (section 4.3): the resolver's active word is "the
first word where `word.start ≤ t ≤ word.end`".  Used to compare the spec's
resolver with the code's per-word flags. -/
def specActiveWordIndex (seg : Segment) (t : ℚ) : Option ℕ :=
  seg.words.findIdx? (fun w => is_active_word w t)

/-- Segment with two words whose closed intervals share the boundary time 1:
"a" on [0,1] and "b" on [1,2]. -/
def segC3 : Segment := ⟨0, 2, [⟨['a'], 0, 1⟩, ⟨['b'], 1, 2⟩]⟩

/-- An image is a function from pixel coordinates to a pixel value. -/
abbrev Image (α : Type) : Type := ℕ → ℕ → α

/-- An opaque pixel (numpy RGB frame row-major entry). -/
abbrev RGBpx := ℚ × ℚ × ℚ

/-- A pixel with alpha. -/
abbrev RGBApx := ℚ × ℚ × ℚ × ℚ

/-- `Image.fromarray(frame).convert("RGBA")`: attach a fully opaque alpha. -/
def convertRGBA (img : Image RGBpx) : Image RGBApx :=
  fun x y => ((img x y).1, (img x y).2.1, (img x y).2.2, 255)

/-- `img.convert("RGB")`: drop the alpha channel. -/
def convertRGB (img : Image RGBApx) : Image RGBpx :=
  fun x y => ((img x y).1, (img x y).2.1, (img x y).2.2.1)

/-- `Image.new("RGBA", size, (0, 0, 0, 0))`: the fully transparent overlay
(`subtitle_core.py` line 181). -/
def blankOverlay : Image RGBApx :=
  fun _ _ => (0, 0, 0, 0)

/-- One pixel of `Image.alpha_composite(base, over)` (the standard `over`
operator on straight-alpha pixels, channel range 0..255, in exact
arithmetic). -/
def alphaCompositePx (b o : RGBApx) : RGBApx :=
  let outA := o.2.2.2 + b.2.2.2 * (255 - o.2.2.2) / 255
  if outA = 0 then (0, 0, 0, 0)
  else ((o.1 * o.2.2.2 + b.1 * b.2.2.2 * (255 - o.2.2.2) / 255) / outA,
        (o.2.1 * o.2.2.2 + b.2.1 * b.2.2.2 * (255 - o.2.2.2) / 255) / outA,
        (o.2.2.1 * o.2.2.2 + b.2.2.1 * b.2.2.2 * (255 - o.2.2.2) / 255) / outA,
        outA)

/-- `Image.alpha_composite` pixelwise (`subtitle_core.py` line 331). -/
def alphaComposite (base over : Image RGBApx) : Image RGBApx :=
  fun x y => alphaCompositePx (base x y) (over x y)

/-- `make_frame` from `subtitle_core.py` lines 177-335, with the actual
subtitle drawing (wrap, background box, outlines, glyphs — lines 191-329)
abstracted as the parameter `drawSubtitles`, since glyph rasterisation is an
external capability: the base frame is converted to RGBA, a fully transparent
overlay is created, the first live segment (if any) has its subtitles drawn
onto the overlay which is then alpha-composited over the frame, and the
result is converted back to RGB.  When no segment is live nothing is drawn
and the composite never happens. -/
def make_frame (getFrame : ℚ → Image RGBpx)
    (drawSubtitles : Segment → ℚ → Image RGBApx → Image RGBApx)
    (transcript : List Segment) (t : ℚ) : Image RGBpx :=
  let img := convertRGBA (getFrame t)
  match selectedSegment transcript t with
  | some seg => convertRGB (alphaComposite img (drawSubtitles seg t blankOverlay))
  | none => convertRGB img

/-- Value of one hexadecimal digit character, as accepted inside
Python `int(s, 16)`. -/
def hexVal (c : Char) : Option ℕ :=
  if '0' ≤ c ∧ c ≤ '9' then some (c.toNat - 48)
  else if 'a' ≤ c ∧ c ≤ 'f' then some (c.toNat - 87)
  else if 'A' ≤ c ∧ c ≤ 'F' then some (c.toNat - 55)
  else none

/-- Accumulator loop of `pyIntHex`: fails on the first non-hex character. -/
def parseHexAux : List Char → ℕ → Option ℕ
  | [], acc => some acc
  | c :: cs, acc =>
    match hexVal c with
    | some d => parseHexAux cs (16 * acc + d)
    | none => none

/-- Python `int(s, 16)` on a plain digit string: `ValueError` (here `none`)
on the empty string or any non-hex-digit character.  (Python additionally
tolerates surrounding whitespace, a sign, and interior underscores; none of
those arise in the claims and they are not modelled.) -/
def pyIntHex (s : List Char) : Option ℕ :=
  if s = [] then none else parseHexAux s 0

/-- Python `int(x)` on an exact rational: truncation toward zero. -/
def pyInt (q : ℚ) : ℤ :=
  if 0 ≤ q then ⌊q⌋ else -⌊-q⌋

/-- `hex_to_rgba` from `subtitle_core.py` lines 44-53: strip leading `#`,
parse the character pairs at positions [0:2], [2:4], [4:6] as hex (a
`ValueError` in any of the three parses raises `Invalid hex color format`),
and compute `a = int(255 * (alpha_percent / 100.0))` — truncation, with no
clamping of `alpha_percent`. -/
def hex_to_rgba (hexColor : List Char) (alphaPercent : ℚ) : Except String (ℕ × ℕ × ℕ × ℤ) :=
  let s := hexColor.dropWhile (fun c => c == '#')
  match pyIntHex (s.take 2), pyIntHex ((s.drop 2).take 2), pyIntHex ((s.drop 4).take 2) with
  | some r, some g, some b => .ok (r, g, b, pyInt (255 * (alphaPercent / 100)))
  | _, _, _ => .error "Invalid hex color format"

/-- A PIL fill command issued by `draw_rounded_rectangle`: an axis-aligned
filled rectangle, or a filled pie slice over a bounding box between two
angles (PIL measures angles in degrees, clockwise from 3 o'clock, with the
y axis pointing down). -/
inductive Shape where
  | rect : ℚ → ℚ → ℚ → ℚ → Shape
  | pieslice : ℚ → ℚ → ℚ → ℚ → ℕ → ℕ → Shape
deriving DecidableEq

/-- `draw_rounded_rectangle` from `subtitle_core.py` lines 13-25, as the
list of fill commands it issues: the radius is clamped to
`min((x1-x0)/2, (y1-y0)/2)`; for a clamped radius ≤ 0 a single plain
rectangle; otherwise two rectangles and four quarter-disc pie slices. -/
def draw_rounded_rectangle (x0 y0 x1 y1 radius : ℚ) : List Shape :=
  let maxRadius := min ((x1 - x0) / 2) ((y1 - y0) / 2)
  let r := min radius maxRadius
  if r ≤ 0 then [.rect x0 y0 x1 y1]
  else [.rect (x0 + r) y0 (x1 - r) y1,
        .rect x0 (y0 + r) x1 (y1 - r),
        .pieslice x0 y0 (x0 + 2 * r) (y0 + 2 * r) 180 270,
        .pieslice (x1 - 2 * r) y0 x1 (y0 + 2 * r) 270 360,
        .pieslice x0 (y1 - 2 * r) (x0 + 2 * r) y1 90 180,
        .pieslice (x1 - 2 * r) (y1 - 2 * r) x1 y1 0 90]

/-- The planar region a fill command paints: a closed rectangle, or the
closed quarter of the inscribed disc selected by the angle pair (only the
four quarter-turn pairs the source uses are given a meaning). -/
def Shape.region : Shape → ℚ → ℚ → Prop
  | .rect x0 y0 x1 y1, x, y => x0 ≤ x ∧ x ≤ x1 ∧ y0 ≤ y ∧ y ≤ y1
  | .pieslice x0 y0 x1 y1 a b, x, y =>
    (x - (x0 + x1) / 2) ^ 2 + (y - (y0 + y1) / 2) ^ 2 ≤ ((x1 - x0) / 2) ^ 2 ∧
    (if a = 180 ∧ b = 270 then x ≤ (x0 + x1) / 2 ∧ y ≤ (y0 + y1) / 2
     else if a = 270 ∧ b = 360 then (x0 + x1) / 2 ≤ x ∧ y ≤ (y0 + y1) / 2
     else if a = 90 ∧ b = 180 then x ≤ (x0 + x1) / 2 ∧ (y0 + y1) / 2 ≤ y
     else if a = 0 ∧ b = 90 then (x0 + x1) / 2 ≤ x ∧ (y0 + y1) / 2 ≤ y
     else False)

/-- The union of the regions painted by a list of fill commands. -/
def paintedRegion (shapes : List Shape) (x y : ℚ) : Prop :=
  ∃ s ∈ shapes, s.region x y

/-- Modelled from the spec (section 4.1): the rounded rectangle of corner
radius `r` over the bounds — points inside the bounds that, when they lie in
one of the four corner squares, are within distance `r` of that corner's
centre. -/
def roundedRectRegion (x0 y0 x1 y1 r x y : ℚ) : Prop :=
  x0 ≤ x ∧ x ≤ x1 ∧ y0 ≤ y ∧ y ≤ y1 ∧
  (x < x0 + r ∧ y < y0 + r → (x - (x0 + r)) ^ 2 + (y - (y0 + r)) ^ 2 ≤ r ^ 2) ∧
  (x1 - r < x ∧ y < y0 + r → (x - (x1 - r)) ^ 2 + (y - (y0 + r)) ^ 2 ≤ r ^ 2) ∧
  (x < x0 + r ∧ y1 - r < y → (x - (x0 + r)) ^ 2 + (y - (y1 - r)) ^ 2 ≤ r ^ 2) ∧
  (x1 - r < x ∧ y1 - r < y → (x - (x1 - r)) ^ 2 + (y - (y1 - r)) ^ 2 ≤ r ^ 2)

/-- The parameter names of `render_subtitled_video`
(`subtitle_core.py` lines 113-141), in order. -/
def renderSubtitledVideoParams : List String :=
  ["input_path", "transcript", "output_path", "st_bar", "log_func", "font_size",
   "word_case", "normal_font_color", "normal_font_opacity", "normal_border_color",
   "normal_border_opacity", "normal_border_thickness", "active_font_color",
   "active_font_opacity", "active_word_size_scale", "active_word_bg_color",
   "active_word_bg_opacity", "active_word_bg_border_radius", "active_border_color",
   "active_border_opacity", "active_border_thickness", "bg_color", "bg_opacity",
   "bg_border_radius", "y_position_percent", "x_offset", "subtitle_area_width_percent"]

/-- The keyword-argument names `app.py`'s `generate_video` passes to
`render_subtitled_video` (`app.py` lines 383-398). -/
def appRenderCallKwargs : List String :=
  ["st_bar", "log_func", "selected_font", "word_case", "font_size",
   "normal_font_color", "normal_font_opacity", "normal_border_color",
   "normal_border_opacity", "normal_border_thickness", "active_font_color",
   "active_font_opacity", "active_word_size_scale", "active_word_bg_color",
   "active_word_bg_opacity", "active_word_bg_border_radius", "active_border_color",
   "active_border_opacity", "active_border_thickness", "bg_color", "bg_opacity",
   "bg_border_radius", "y_position_percent", "x_offset",
   "subtitle_area_width_percent", "disable_active_style"]

/-- The names `app.py` line 11 imports from `subtitle_core`. -/
def appImportsFromSubtitleCore : List String :=
  ["extract_audio", "transcribe", "render_subtitled_video", "_wrap_text"]

/-- The top-level definitions of `subtitle_core.py`. -/
def subtitleCoreDefs : List String :=
  ["draw_rounded_rectangle", "StreamlitLogger", "hex_to_rgba", "extract_audio",
   "transcribe", "get_font_path", "render_subtitled_video"]

/-- The per-word style dispatch of `make_frame` (`subtitle_core.py` lines
284-288): `X = active_X if is_active_word else normal_X`, with no
disable input of any kind. -/
def activeOrNormal {α : Type} (w : Word) (t : ℚ) (activeV normalV : α) : α :=
  if is_active_word w t then activeV else normalV

/-- Python whitespace (`str.strip` / `str.split` with no argument). -/
def isPySpace (c : Char) : Bool :=
  c = ' ' ∨ c = '\t' ∨ c = '\n' ∨ c = '\r' ∨ c = '\x0b' ∨ c = '\x0c'

/-- Python `s.lstrip()` (no argument). -/
def lstripWS (l : List Char) : List Char := l.dropWhile isPySpace

/-- Python `s.rstrip()` (no argument). -/
def rstripWS (l : List Char) : List Char := (l.reverse.dropWhile isPySpace).reverse

/-- Python `s.strip()` (no argument). -/
def stripWS (l : List Char) : List Char := rstripWS (lstripWS l)

/-- True when the list starts with a non-whitespace character. -/
def headNonWS : List Char → Bool
  | [] => false
  | c :: _ => !(isPySpace c)

/-- Python `s.split("\n\n")` (`srt_tools.py` line 30): leftmost-first,
non-overlapping, empty parts kept. -/
def splitOnNN : List Char → List (List Char)
  | '\n' :: '\n' :: rest => [] :: splitOnNN rest
  | c :: rest => (splitOnNN rest).modifyHead (c :: ·)
  | [] => [[]]

/-- Python `s.split('\n')` (`srt_tools.py` line 36). -/
def splitOnNL : List Char → List (List Char)
  | '\n' :: rest => [] :: splitOnNL rest
  | c :: rest => (splitOnNL rest).modifyHead (c :: ·)
  | [] => [[]]

/-- Python `s.split(" --> ")` (`srt_tools.py` line 42). -/
def splitOnArrow : List Char → List (List Char)
  | ' ' :: '-' :: '-' :: '>' :: ' ' :: rest => [] :: splitOnArrow rest
  | c :: rest => (splitOnArrow rest).modifyHead (c :: ·)
  | [] => [[]]

/-- Worker for `pySplitWS`, accumulating the current token reversed. -/
def pySplitWSGo : List Char → List Char → List (List Char)
  | [], acc => if acc = [] then [] else [acc.reverse]
  | c :: rest, acc =>
    if isPySpace c then
      (if acc = [] then pySplitWSGo rest [] else acc.reverse :: pySplitWSGo rest [])
    else pySplitWSGo rest (c :: acc)

/-- Python `s.split()` with no argument: split on whitespace runs, dropping
empty parts (`srt_tools.py` line 58). -/
def pySplitWS (l : List Char) : List (List Char) := pySplitWSGo l []

/-- One decimal digit character. -/
def digitChar (d : ℕ) : Char := Char.ofNat (48 + d)

/-- Worker for `natToChars`, structurally recursive on a fuel bound (the
fuel never runs out when it starts at `n`, since `n / 10 < n`). -/
def natToCharsGo : ℕ → ℕ → List Char
  | 0, _ => ['0']
  | fuel + 1, n =>
    if n < 10 then [digitChar n]
    else natToCharsGo fuel (n / 10) ++ [digitChar (n % 10)]

/-- Decimal digits of a natural number (Python `f"{n}"` for `n ≥ 0`). -/
def natToChars (n : ℕ) : List Char := natToCharsGo n n

/-- Python `f"{n:02}"` for a nonnegative integer. -/
def pad2 (n : ℤ) : List Char :=
  if n < 10 then '0' :: natToChars n.toNat else natToChars n.toNat

/-- Python `f"{n:03}"` for a nonnegative integer. -/
def pad3 (n : ℤ) : List Char :=
  if n < 10 then '0' :: '0' :: natToChars n.toNat
  else if n < 100 then '0' :: natToChars n.toNat
  else natToChars n.toNat

/-- `_format_time` from `srt_tools.py` lines 3-9.  `timedelta(seconds=s)` is
modelled at microsecond resolution with floor rounding, computed with integer
operations on the rational's numerator and denominator; `td.seconds` is the
floor-seconds mod 86400 (whole days are dropped, exactly as the source drops
`td.days`), and the milliseconds are `td.microseconds // 1000`. -/
def _format_time (seconds : ℚ) : List Char :=
  let totalMicro : ℤ := Int.fdiv (seconds.num * 1000000) (seconds.den : ℤ)
  let secs : ℤ := Int.fdiv totalMicro 1000000
  let micro : ℤ := totalMicro - secs * 1000000
  let tdSeconds : ℤ := secs % 86400
  let hours : ℤ := tdSeconds / 3600
  let remainder : ℤ := tdSeconds % 3600
  let minutes : ℤ := remainder / 60
  let secs2 : ℤ := remainder % 60
  let ms : ℤ := micro / 1000
  pad2 hours ++ ':' :: pad2 minutes ++ ':' :: pad2 secs2 ++ ',' :: pad3 ms

/-- The SRT timestamp separator `" --> "`. -/
def arrowSep : List Char := [' ', '-', '-', '>', ' ']

/-- Worker for `to_srt`, carrying the enumeration index `i`
(`srt_tools.py` lines 13-22): segments whose joined-stripped text is empty
are skipped but still consume their index. -/
def toSrtGo : List Segment → ℕ → List Char
  | [], _ => []
  | seg :: rest, i =>
    let text := stripWS (List.intercalate [' '] (seg.words.map (fun w => w.word)))
    if text = [] then toSrtGo rest (i + 1)
    else natToChars (i + 1) ++ '\n' ::
      (_format_time seg.start ++ arrowSep ++ _format_time seg.«end») ++ '\n' ::
      (text ++ '\n' :: '\n' :: toSrtGo rest (i + 1))

/-- `to_srt` from `srt_tools.py` lines 11-23. -/
def to_srt (transcript : List Segment) : List Char := toSrtGo transcript 0

/-- Fallback word for the (never taken) out-of-range accesses. -/
def defaultWord : Word := ⟨[], 0, 0⟩

/-- The word-mapping loop of `from_srt` (`srt_tools.py` lines 62-74): the
new segment has exactly the original word count; word `j` takes its text
from token `j` of the edited text when available (otherwise it keeps the
original text) and always keeps the original timings. -/
def remapWords (origWords : List Word) (tokens : List (List Char)) : List Word :=
  (List.range origWords.length).map (fun j =>
    let ow := origWords.getD j defaultWord
    { word := if j < tokens.length then tokens.getD j [] else ow.word,
      start := ow.start, «end» := ow.«end» })

/-- The `ValueError` raised by the unguarded unpacking
`start_str, end_str = times_line.split(" --> ")` (`srt_tools.py` line 42). -/
def srtUnpackError : String :=
  "ValueError: timestamps line does not split into exactly two values"

/-- Worker for `from_srt` (`srt_tools.py` lines 35-76), one block per step,
carrying the block index `i`: blocks with fewer than 3 lines are skipped
(still consuming their index); otherwise the timestamp line must split into
exactly two parts around `" --> "` (else the whole import raises); the new
text is the joined remaining lines; blocks beyond the original segment count
are dropped.  A raise anywhere poisons the entire result, as in Python. -/
def fromSrtGo (origSegs : List Segment) : List (List Char) → ℕ → Except String (List Segment)
  | [], _ => .ok []
  | blk :: blks, i =>
    let lines := splitOnNL (stripWS blk)
    if lines.length < 3 then fromSrtGo origSegs blks (i + 1)
    else
      match splitOnArrow (lines.getD 1 []) with
      | [_, _] =>
        let newText := stripWS (List.intercalate [' '] (lines.drop 2))
        if i < origSegs.length then
          let o := origSegs.getD i ⟨0, 0, []⟩
          let newSeg : Segment :=
            { start := o.start, «end» := o.«end»,
              words := remapWords o.words (pySplitWS newText) }
          match fromSrtGo origSegs blks (i + 1) with
          | .ok rest => .ok (newSeg :: rest)
          | .error e => .error e
        else fromSrtGo origSegs blks (i + 1)
      | _ => .error srtUnpackError

/-- `from_srt` from `srt_tools.py` lines 25-78.  (`original_segments` is the
original transcript filtered to segments that carry a `"words"` key; in this
typed model every segment does, so the filter is the identity.) -/
def from_srt (srtString : List Char) (originalTranscript : List Segment) :
    Except String (List Segment) :=
  fromSrtGo originalTranscript (splitOnNN (stripWS srtString)) 0

/-- The joined-stripped text `" ".join([w["word"] for w in seg["words"]]).strip()`
of a segment (`srt_tools.py` line 15). -/
def textOf (seg : Segment) : List Char :=
  stripWS (List.intercalate [' '] (seg.words.map (fun w => w.word)))

/-- One SRT block as `to_srt` renders it (index line, timestamps line,
text line), without the trailing blank line. -/
def renderBlock (i : ℕ) (seg : Segment) (text : List Char) : List Char :=
  natToChars (i + 1) ++
    ('\n' :: ((_format_time seg.start ++ (arrowSep ++ _format_time seg.«end»)) ++
      ('\n' :: text)))

/-- The SRT text whose blocks carry the indices and timestamps of the given
segments but arbitrary replacement texts: the shape of a user-edited SRT
in which only the text lines were changed. -/
def buildSrtGo : ℕ → List Segment → List (List Char) → List Char
  | _, [], _ => []
  | _, _ :: _, [] => []
  | i, seg :: ss, txt :: ts => renderBlock i seg txt ++ '\n' :: '\n' :: buildSrtGo (i + 1) ss ts

/-- See `buildSrtGo`. -/
def buildSrt (segs : List Segment) (texts : List (List Char)) : List Char :=
  buildSrtGo 0 segs texts

/-- The result of re-importing one block: original timings, token `j` of the
edited text for word `j` (original text past the edited tokens). -/
def remapSeg (seg : Segment) (txt : List Char) : Segment :=
  ⟨seg.start, seg.«end», remapWords seg.words (pySplitWS txt)⟩

/-- A text line suitable for an SRT block: nonempty, single-line, already
stripped (first and last characters not whitespace). -/
def goodText (t : List Char) : Prop :=
  t ≠ [] ∧ '\n' ∉ t ∧ headNonWS t = true ∧ headNonWS t.reverse = true

/-- The blocks of a built SRT string, by position. -/
def blockList : ℕ → List Segment → List (List Char) → List (List Char)
  | _, [], _ => []
  | _, _ :: _, [] => []
  | i, seg :: ss, txt :: ts => renderBlock i seg txt :: blockList (i + 1) ss ts

/-- A captions block `from_srt` digests without raising: fewer than three
lines (skipped), or a timestamps line splitting into exactly two parts. -/
def blockBenign (blk : List Char) : Prop :=
  (splitOnNL (stripWS blk)).length < 3 ∨
    ∃ a b, splitOnArrow ((splitOnNL (stripWS blk)).getD 1 []) = [a, b]

/-- Two captions blocks that differ only in their timestamps line, each
timestamps line splitting into exactly two parts around the arrow. -/
def tsOnlyDiff (b1 b2 : List Char) : Prop :=
  ∃ idx ts1 ts2 rest a1 e1 a2 e2,
    splitOnNL (stripWS b1) = idx :: ts1 :: rest ∧
    splitOnNL (stripWS b2) = idx :: ts2 :: rest ∧
    splitOnArrow ts1 = [a1, e1] ∧ splitOnArrow ts2 = [a2, e2]

/-- A transcript whose first segment has no words (empty text): `to_srt`
skips it but `from_srt` aligns blocks positionally, so the round trip
drops the second segment's words and timings. -/
def C8ts : List Segment := [⟨0, 1, []⟩, ⟨2, 3, [⟨['w'], 2, 3⟩]⟩]

/-! ### Theorems and supporting lemmas -/

theorem wrapLoop_join (measure : Word → ℚ) (spaceW maxW : ℚ) :
    ∀ (ws : List Word) (acc : List (List Word)) (cur : List Word) (curW : ℚ),
      (wrapLoop measure spaceW maxW ws acc cur curW).1.flatten ++
        (wrapLoop measure spaceW maxW ws acc cur curW).2.1 =
      acc.flatten ++ cur ++ ws := by
  intro ws
  induction ws with
  | nil => intro acc cur curW; simp [wrapLoop]
  | cons w ws ih =>
    intro acc cur curW
    simp only [wrapLoop]
    by_cases h : curW ≠ 0 ∧ maxW < curW + (if curW ≠ 0 then spaceW else 0) + measure w
    · simp only [if_pos h, ih]
      simp
    · simp only [if_neg h, ih]
      simp

theorem wrapLoop_good (measure : Word → ℚ) (spaceW maxW : ℚ) (hsp : 0 ≤ spaceW) :
    ∀ (ws : List Word) (acc : List (List Word)) (cur : List Word) (curW : ℚ),
      (∀ w ∈ ws, 0 < measure w) →
      (cur = [] → curW = 0) →
      (cur ≠ [] → curW = lineWidth measure spaceW cur ∧ 0 < curW ∧
        (curW ≤ maxW ∨ ∃ w, cur = [w] ∧ maxW < measure w)) →
      (∀ l ∈ acc, goodLine measure spaceW maxW l) →
      (∀ l ∈ (wrapLoop measure spaceW maxW ws acc cur curW).1,
        goodLine measure spaceW maxW l) ∧
      ((wrapLoop measure spaceW maxW ws acc cur curW).2.1 = [] ∨
        goodLine measure spaceW maxW (wrapLoop measure spaceW maxW ws acc cur curW).2.1) := by
  intro ws
  induction ws with
  | nil =>
    intro acc cur curW _ hnil hcur hacc
    simp only [wrapLoop]
    refine ⟨hacc, ?_⟩
    by_cases hc : cur = []
    · exact Or.inl hc
    · refine Or.inr ⟨hc, ?_⟩
      rcases hcur hc with ⟨heq, _, hle⟩
      rcases hle with hle | hov
      · exact Or.inl (heq ▸ hle)
      · exact Or.inr hov
  | cons w ws ih =>
    intro acc cur curW hpos hnil hcur hacc
    have hw : 0 < measure w := hpos w (List.mem_cons_self w ws)
    have hpos' : ∀ x ∈ ws, 0 < measure x := fun x hx => hpos x (List.mem_cons_of_mem w hx)
    simp only [wrapLoop]
    by_cases h : curW ≠ 0 ∧ maxW < curW + (if curW ≠ 0 then spaceW else 0) + measure w
    · simp only [if_pos h]
      -- close the current line, start a new one holding only `w`
      have hcne : cur ≠ [] := fun hc => h.1 (hnil hc)
      rcases hcur hcne with ⟨heq, hgt, hle⟩
      refine ih (acc ++ [cur]) [w] (measure w) hpos' (by simp) ?_ ?_
      · intro _
        refine ⟨?_, hw, ?_⟩
        · simp [lineWidth]
        · rcases le_or_lt (measure w) maxW with hx | hx
          · exact Or.inl hx
          · exact Or.inr ⟨w, rfl, hx⟩
      · intro l hl
        rcases List.mem_append.1 hl with hl | hl
        · exact hacc l hl
        · have : l = cur := by simpa using hl
          subst this
          refine ⟨hcne, ?_⟩
          rcases hle with hle | hov
          · exact Or.inl (heq ▸ hle)
          · exact Or.inr hov
    · simp only [if_neg h]
      -- append `w` to the current line
      by_cases hc0 : curW = 0
      · have hcur0 : cur = [] := by
          by_contra hc
          exact absurd hc0 (ne_of_gt (hcur hc).2.1)
        subst hcur0
        simp only [hc0, if_neg (by simp : ¬ ((0:ℚ) ≠ 0))]
        refine ih acc [w] (0 + 0 + measure w) hpos' (by simp) ?_ hacc
        intro _
        refine ⟨by simp [lineWidth], by simpa using hw, ?_⟩
        rcases le_or_lt (measure w) maxW with hx | hx
        · exact Or.inl (by simpa using hx)
        · exact Or.inr ⟨w, rfl, by simpa using hx⟩
      · have hcne : cur ≠ [] := by
          intro hc
          exact hc0 (hnil hc)
        rcases hcur hcne with ⟨heq, hgt, _⟩
        have hfit : curW + spaceW + measure w ≤ maxW := by
          rcases not_and_or.1 h with hx | hx
          · exact absurd hc0 (by simpa using hx)
          · have := not_lt.1 hx
            simpa [if_pos hc0] using this
        simp only [if_pos hc0]
        refine ih acc (cur ++ [w]) (curW + spaceW + measure w) hpos' (by simp) ?_ hacc
        intro _
        have hlw : lineWidth measure spaceW (cur ++ [w]) = curW + spaceW + measure w := by
          rw [heq]
          have h1 : (((cur ++ [w]).length : ℚ)) = (cur.length : ℚ) + 1 := by
            simp
          simp only [lineWidth, List.map_append, List.sum_append, List.map_cons, List.map_nil,
            List.sum_cons, List.sum_nil, h1]
          ring
        refine ⟨hlw.symm, ?_, Or.inl (hlw ▸ hfit)⟩
        have : (0:ℚ) < curW + spaceW + measure w := by positivity
        exact this

theorem wrapWords_flatten (measure : Word → ℚ) (spaceW maxW : ℚ) (words : List Word) :
    (wrapWords measure spaceW maxW words).flatten = words := by
  have h := wrapLoop_join measure spaceW maxW words [] [] 0
  simp only [List.flatten_nil, List.nil_append] at h
  simp only [wrapWords]
  split_ifs with hc
  · rw [List.flatten_append]
    simpa using h
  · rw [not_ne_iff] at hc
    rw [hc, List.append_nil] at h
    exact h

theorem wrapWords_good (measure : Word → ℚ) (spaceW maxW : ℚ) (hsp : 0 ≤ spaceW)
    (words : List Word) (hpos : ∀ w ∈ words, 0 < measure w) :
    ∀ l ∈ wrapWords measure spaceW maxW words, goodLine measure spaceW maxW l := by
  have h := wrapLoop_good measure spaceW maxW hsp words [] [] 0 hpos (fun _ => rfl)
    (fun hc => absurd rfl hc) (by simp)
  intro l hl
  simp only [wrapWords] at hl
  split_ifs at hl with hc
  · rcases List.mem_append.1 hl with hl | hl
    · exact h.1 l hl
    · have : l = (wrapLoop measure spaceW maxW words [] [] 0).2.1 := by simpa using hl
      subst this
      rcases h.2 with h2 | h2
      · exact absurd h2 hc
      · exact h2
  · exact h.1 l hl

theorem wrapLoop_congr (m1 m2 : Word → ℚ) (spaceW maxW : ℚ) :
    ∀ (ws : List Word), (∀ w ∈ ws, m1 w = m2 w) →
      ∀ (acc : List (List Word)) (cur : List Word) (curW : ℚ),
        wrapLoop m1 spaceW maxW ws acc cur curW = wrapLoop m2 spaceW maxW ws acc cur curW := by
  intro ws
  induction ws with
  | nil => intros; rfl
  | cons w ws ih =>
    intro hm acc cur curW
    have hw : m1 w = m2 w := hm w (List.mem_cons_self w ws)
    have hws : ∀ x ∈ ws, m1 x = m2 x := fun x hx => hm x (List.mem_cons_of_mem w hx)
    simp only [wrapLoop, hw]
    by_cases h : curW ≠ 0 ∧ maxW < curW + (if curW ≠ 0 then spaceW else 0) + m2 w
    · simp only [if_pos h]
      exact ih hws _ _ _
    · simp only [if_neg h]
      exact ih hws _ _ _

theorem wrapWords_congr (m1 m2 : Word → ℚ) (spaceW maxW : ℚ) (words : List Word)
    (hm : ∀ w ∈ words, m1 w = m2 w) :
    wrapWords m1 spaceW maxW words = wrapWords m2 spaceW maxW words := by
  simp only [wrapWords, wrapLoop_congr m1 m2 spaceW maxW words hm]

/-- Claim C1, as frozen, is false on the code: with a zero-width word the
wrap loop skips the inter-word space (`space_width ... if current_line_width
else 0`), so a produced line can hold two words yet measure wider than the
maximum.  Concretely, for an empty-text word followed by "bb" under `fontA`
(space width 10) with max width 10 and render time 0, the wrap returns one
two-word line whose measured width is 20 > 10 and which is not a single
over-wide word. -/
theorem C1_counterexample :
    ¬ (∀ l ∈ wrapAtTime fontA fontA "As Is" 10 0 [⟨[], 5, 6⟩, ⟨['b','b'], 5, 6⟩],
        lineWidth (wordWidthAt fontA fontA "As Is" 0) (fontA [' ']) l ≤ 10 ∨
          ∃ w, l = [w] ∧ 10 < wordWidthAt fontA fontA "As Is" 0 w) := by
  intro h
  have hac : ∀ s : List Char, apply_case s "As Is" = s := fun _ => rfl
  have hmem : [(⟨[], 5, 6⟩ : Word), ⟨['b','b'], 5, 6⟩] ∈
      wrapAtTime fontA fontA "As Is" 10 0 [⟨[], 5, 6⟩, ⟨['b','b'], 5, 6⟩] := by
    norm_num [wrapAtTime, wrapWords, wrapLoop, wordWidthAt, is_active_word, hac, fontA]
    exact List.cons_ne_nil _ _
  rcases h _ hmem with hle | ⟨w, hw, _⟩
  · norm_num [lineWidth, wordWidthAt, is_active_word, hac, fontA] at hle
    rw [if_neg (List.cons_ne_nil 'b' ['b'])] at hle
    norm_num at hle
  · simp at hw

/-- Claim C1 (amended): for every word sequence in which each word has a
positive rendered width at the render time (every nonempty-text word in a
real font), every font pair, case mode, nonnegative space width and positive
max pixel width, the greedy wrap keeps every word (lines flatten back to the
input, so no word is dropped or split) and every produced line is nonempty
and either measures at most the max width (word widths plus one inter-word
space width each) or is a single word that is itself wider than the max
width.  The original claim, which also allowed zero-width words, is refuted
by `C1_counterexample`. -/
theorem C1_wrap_lines_fit_or_single_overwide
    (normalM activeM : List Char → ℚ) (caseOption : String) (maxW t : ℚ) (words : List Word)
    (_hmax : 0 < maxW) (hsp : 0 ≤ normalM [' '])
    (hpos : ∀ w ∈ words, 0 < wordWidthAt normalM activeM caseOption t w) :
    (wrapAtTime normalM activeM caseOption maxW t words).flatten = words ∧
    ∀ l ∈ wrapAtTime normalM activeM caseOption maxW t words,
      goodLine (wordWidthAt normalM activeM caseOption t) (normalM [' ']) maxW l :=
  ⟨wrapWords_flatten _ _ _ _,
    wrapWords_good (wordWidthAt normalM activeM caseOption t) (normalM [' ']) maxW hsp
      words hpos⟩

/-- Witness for C1: the hypotheses hold at the concrete input
(`fontB`, two words, max width 15, time 0), and the amended claim applies. -/
theorem C1_witness :
    (0:ℚ) < 15 ∧ (0:ℚ) ≤ fontB [' '] ∧
    (∀ w ∈ [(⟨['a','a'], 0, 1⟩ : Word), ⟨['b','b'], 3, 4⟩],
      0 < wordWidthAt fontB fontB "As Is" 0 w) ∧
    ((wrapAtTime fontB fontB "As Is" 15 0
        [(⟨['a','a'], 0, 1⟩ : Word), ⟨['b','b'], 3, 4⟩]).flatten =
      [(⟨['a','a'], 0, 1⟩ : Word), ⟨['b','b'], 3, 4⟩] ∧
    ∀ l ∈ wrapAtTime fontB fontB "As Is" 15 0
        [(⟨['a','a'], 0, 1⟩ : Word), ⟨['b','b'], 3, 4⟩],
      goodLine (wordWidthAt fontB fontB "As Is" 0) (fontB [' ']) 15 l) := by
  have hpos : ∀ w ∈ [(⟨['a','a'], 0, 1⟩ : Word), ⟨['b','b'], 3, 4⟩],
      0 < wordWidthAt fontB fontB "As Is" 0 w := by
    intro w _
    simp only [wordWidthAt, fontB, ite_self]
    norm_num
  exact ⟨by norm_num, by norm_num [fontB], hpos,
    C1_wrap_lines_fit_or_single_overwide fontB fontB "As Is" 15 0 _
      (by norm_num) (by norm_num [fontB]) hpos⟩

/-- Claim C2, as frozen, is false on the code: inside `make_frame` the wrap
measures each word with the active font when the word is active at render
time `t` (`subtitle_core.py` line 206), so two times inside the same
segment's range can wrap to different lines.  Concretely, with `segC2`
(span [0,4]), normal widths 50 / space 10 / active width 120 and max width
120, at t = 0 (word "aa" active) the words wrap to two lines, while at
t = 2 (no word active) they wrap to a single line. -/
theorem C2_counterexample :
    (segC2.start ≤ 0 ∧ (0:ℚ) ≤ segC2.«end») ∧
    (segC2.start ≤ 2 ∧ (2:ℚ) ≤ segC2.«end») ∧
    wrapAtTime fontNormalC2 fontActiveC2 "As Is" 120 0 segC2.words =
      [[⟨['a','a'], 0, 1⟩], [⟨['b','b'], 3, 4⟩]] ∧
    wrapAtTime fontNormalC2 fontActiveC2 "As Is" 120 2 segC2.words =
      [[⟨['a','a'], 0, 1⟩, ⟨['b','b'], 3, 4⟩]] ∧
    wrapAtTime fontNormalC2 fontActiveC2 "As Is" 120 0 segC2.words ≠
      wrapAtTime fontNormalC2 fontActiveC2 "As Is" 120 2 segC2.words := by
  have hac : ∀ s : List Char, apply_case s "As Is" = s := fun _ => rfl
  have h0 : wrapAtTime fontNormalC2 fontActiveC2 "As Is" 120 0 segC2.words =
      [[⟨['a','a'], 0, 1⟩], [⟨['b','b'], 3, 4⟩]] := by
    norm_num [segC2, wrapAtTime, wrapWords, wrapLoop, wordWidthAt, is_active_word, hac,
      fontNormalC2, fontActiveC2]
  have h2 : wrapAtTime fontNormalC2 fontActiveC2 "As Is" 120 2 segC2.words =
      [[⟨['a','a'], 0, 1⟩, ⟨['b','b'], 3, 4⟩]] := by
    norm_num [segC2, wrapAtTime, wrapWords, wrapLoop, wordWidthAt, is_active_word, hac,
      fontNormalC2, fontActiveC2]
    exact List.cons_ne_nil _ _
  refine ⟨⟨by norm_num [segC2], by norm_num [segC2]⟩,
    ⟨by norm_num [segC2], by norm_num [segC2]⟩, h0, h2, ?_⟩
  rw [h0, h2]
  decide

/-- Claim C2 (amended): the wrap depends on the render time only through the
per-word active flags.  For any two times at which every word of the
sequence has the same active status (in particular any two times at which
the same word, or no word, is active), the wrap produces identical lines;
hence it is a pure function of the words, style and max width whenever the
active and normal fonts measure alike, but not in general (see
`C2_counterexample`). -/
theorem C2_wrap_depends_only_on_active_flags
    (normalM activeM : List Char → ℚ) (caseOption : String) (maxW t1 t2 : ℚ)
    (words : List Word)
    (hflags : ∀ w ∈ words, is_active_word w t1 = is_active_word w t2) :
    wrapAtTime normalM activeM caseOption maxW t1 words =
      wrapAtTime normalM activeM caseOption maxW t2 words := by
  apply wrapWords_congr
  intro w hw
  simp only [wordWidthAt, hflags w hw]

/-- Witness for C2: at times 0 and 1 the first word of `segC2` is active and
the second is not, so the amended claim applies and the wraps agree. -/
theorem C2_witness :
    (∀ w ∈ segC2.words, is_active_word w 0 = is_active_word w 1) ∧
    wrapAtTime fontNormalC2 fontActiveC2 "As Is" 120 0 segC2.words =
      wrapAtTime fontNormalC2 fontActiveC2 "As Is" 120 1 segC2.words := by
  have hflags : ∀ w ∈ segC2.words, is_active_word w 0 = is_active_word w 1 := by
    decide
  exact ⟨hflags,
    C2_wrap_depends_only_on_active_flags fontNormalC2 fontActiveC2 "As Is" 120 0 1
      segC2.words hflags⟩

theorem find?_eq_some_iff_first {α : Type} (p : α → Bool) :
    ∀ (l : List α) (a : α), l.find? p = some a ↔
      ∃ pre post, l = pre ++ a :: post ∧ (∀ x ∈ pre, p x = false) ∧ p a = true := by
  intro l
  induction l with
  | nil =>
    intro a
    constructor
    · intro h; simp at h
    · rintro ⟨pre, post, heq, -, -⟩
      exact absurd heq (List.append_ne_nil_of_right_ne_nil pre (List.cons_ne_nil a post)).symm
  | cons x xs ih =>
    intro a
    by_cases hx : p x
    · rw [List.find?_cons_of_pos _ hx]
      constructor
      · intro h
        obtain rfl : x = a := by simpa using h
        exact ⟨[], xs, rfl, by simp, hx⟩
      · rintro ⟨pre, post, heq, hpre, hpa⟩
        cases pre with
        | nil =>
          obtain ⟨rfl, -⟩ : x = a ∧ xs = post := by simpa using heq
          rfl
        | cons y ys =>
          obtain ⟨rfl, -⟩ : x = y ∧ xs = ys ++ a :: post := by simpa using heq
          have := hpre x (List.mem_cons_self x ys)
          rw [hx] at this
          cases this
    · rw [List.find?_cons_of_neg _ hx]
      rw [ih a]
      constructor
      · rintro ⟨pre, post, heq, hpre, hpa⟩
        refine ⟨x :: pre, post, by simp [heq], ?_, hpa⟩
        intro s hs
        rcases List.mem_cons.1 hs with rfl | hs
        · exact Bool.eq_false_iff.2 hx
        · exact hpre s hs
      · rintro ⟨pre, post, heq, hpre, hpa⟩
        cases pre with
        | nil =>
          obtain ⟨rfl, -⟩ : x = a ∧ xs = post := by simpa using heq
          exact absurd hpa hx
        | cons y ys =>
          obtain ⟨rfl, htl⟩ : x = y ∧ xs = ys ++ a :: post := by simpa using heq
          exact ⟨ys, post, htl, fun s hs => hpre s (List.mem_cons_of_mem x hs), hpa⟩

/-- Claim C3, as frozen, is false on the code: within the rendered segment
the code styles as active every word whose interval contains `t`, not only
the first one.  At the boundary time t = 1 of `segC3` both adjacent words'
closed intervals contain 1, so both render active, while the spec's resolver
(`specActiveWordIndex`) names only word 0. -/
theorem C3_counterexample :
    segLive segC3 1 = true ∧
    activeFlags segC3 1 = [true, true] ∧
    specActiveWordIndex segC3 1 = some 0 ∧
    ¬ (∀ j, (activeFlags segC3 1)[j]? = some true ↔ specActiveWordIndex segC3 1 = some j) := by
  refine ⟨by decide, by decide, by decide, ?_⟩
  intro h
  have h1 : (activeFlags segC3 1)[1]? = some true := by decide
  have := (h 1).1 h1
  have h0 : specActiveWordIndex segC3 1 = some 0 := by decide
  rw [h0] at this
  simp at this

/-- Claim C3 (amended): segment selection is as claimed — `make_frame` uses
the first segment in transcript order whose closed interval contains `t`
(earlier segment wins on overlap) and selects none when no interval contains
`t` — but within the selected segment every word whose own interval contains
`t` is styled active (possibly several at once, e.g. at a shared interval
boundary, refuting "exactly the first": see `C3_counterexample`); no word is
active when `t` falls in an inter-word gap. -/
theorem C3_resolver_behavior (transcript : List Segment) (t : ℚ) :
    (selectedSegment transcript t = none ↔
      ∀ seg ∈ transcript, ¬ (seg.start ≤ t ∧ t ≤ seg.«end»)) ∧
    (∀ seg, selectedSegment transcript t = some seg →
      seg ∈ transcript ∧ (seg.start ≤ t ∧ t ≤ seg.«end») ∧
      ∃ pre post, transcript = pre ++ seg :: post ∧
        ∀ s ∈ pre, ¬ (s.start ≤ t ∧ t ≤ s.«end»)) ∧
    (∀ seg : Segment, ∀ j : ℕ, (activeFlags seg t)[j]? = some true ↔
      ∃ w, seg.words[j]? = some w ∧ w.start ≤ t ∧ t ≤ w.«end») ∧
    (∀ seg : Segment, specActiveWordIndex seg t = none ↔
      ∀ w ∈ seg.words, ¬ (w.start ≤ t ∧ t ≤ w.«end»)) := by
  refine ⟨?_, ?_, ?_, ?_⟩
  · rw [selectedSegment, List.find?_eq_none]
    simp [segLive]
  · intro seg hsel
    have hsel' : transcript.find? (fun s => segLive s t) = some seg := hsel
    have hmem : seg ∈ transcript := List.mem_of_find?_eq_some hsel'
    have hlive := List.find?_some hsel'
    rw [selectedSegment, find?_eq_some_iff_first] at hsel
    rcases hsel with ⟨pre, post, heq, hpre, -⟩
    refine ⟨hmem, by simpa [segLive] using hlive, pre, post, heq, ?_⟩
    intro s hs
    have := hpre s hs
    simpa [segLive] using this
  · intro seg j
    rw [activeFlags, List.getElem?_map]
    cases hw : seg.words[j]? with
    | none => simp
    | some w => simp [is_active_word]
  · intro seg
    rw [specActiveWordIndex, List.findIdx?_eq_none_iff]
    simp [is_active_word]

/-- Witness for C3: instantiating the amended claim on the concrete
transcript `[segC3]` at the boundary time 1 — the selected segment is
`segC3` itself (discharging the inner hypothesis concretely) and both words
are active. -/
theorem C3_witness :
    selectedSegment [segC3] 1 = some segC3 ∧
    (segC3 ∈ [segC3] ∧ (segC3.start ≤ 1 ∧ (1:ℚ) ≤ segC3.«end») ∧
      ∃ pre post, [segC3] = pre ++ segC3 :: post ∧
        ∀ s ∈ pre, ¬ (s.start ≤ 1 ∧ (1:ℚ) ≤ s.«end»)) ∧
    ((activeFlags segC3 1)[0]? = some true ↔
      ∃ w, segC3.words[0]? = some w ∧ w.start ≤ 1 ∧ (1:ℚ) ≤ w.«end») := by
  have hsel : selectedSegment [segC3] 1 = some segC3 := by decide
  exact ⟨hsel, (C3_resolver_behavior [segC3] 1).2.1 segC3 hsel,
    (C3_resolver_behavior [segC3] 1).2.2.1 segC3 0⟩

/-- Claim C4 (confirmed): when no segment's closed interval contains `t`,
`make_frame` draws nothing — the loop body never runs, the overlay stays the
fully transparent `blankOverlay`, no composite happens, and the returned
frame is the base frame converted RGB→RGBA→RGB, i.e. the undecorated input
frame — and this holds for every possible subtitle-drawing behaviour.  The
second conjunct additionally checks that even compositing the untouched
transparent overlay would leave the frame unchanged. -/
theorem C4_no_segment_frame_unchanged
    (getFrame : ℚ → Image RGBpx)
    (drawSubtitles : Segment → ℚ → Image RGBApx → Image RGBApx)
    (transcript : List Segment) (t : ℚ)
    (h : ∀ seg ∈ transcript, ¬ (seg.start ≤ t ∧ t ≤ seg.«end»)) :
    make_frame getFrame drawSubtitles transcript t = getFrame t ∧
    alphaComposite (convertRGBA (getFrame t)) blankOverlay = convertRGBA (getFrame t) := by
  have hnone : selectedSegment transcript t = none := by
    rw [selectedSegment, List.find?_eq_none]
    intro s hs
    simpa [segLive] using h s hs
  constructor
  · funext x y
    simp only [make_frame, hnone]
    rfl
  · funext x y
    simp only [alphaComposite, alphaCompositePx, blankOverlay, convertRGBA]
    norm_num

/-- Witness for C4: a one-segment transcript spanning [0,2] queried at
t = 3 (outside the segment) with a constant base frame; the hypothesis is
discharged concretely and the frame comes back unchanged. -/
theorem C4_witness :
    (∀ seg ∈ [(⟨0, 2, []⟩ : Segment)], ¬ (seg.start ≤ 3 ∧ (3:ℚ) ≤ seg.«end»)) ∧
    make_frame (fun _ _ _ => (1, 2, 3)) (fun _ _ o => o) [⟨0, 2, []⟩] 3 =
      (fun _ _ => ((1 : ℚ), (2 : ℚ), (3 : ℚ))) := by
  have h : ∀ seg ∈ [(⟨0, 2, []⟩ : Segment)], ¬ (seg.start ≤ 3 ∧ (3:ℚ) ≤ seg.«end») := by
    decide
  exact ⟨h, (C4_no_segment_frame_unchanged (fun _ _ _ => (1, 2, 3)) (fun _ _ o => o)
    [⟨0, 2, []⟩] 3 h).1⟩

/-- Claim C5, as frozen, is false on the code in three ways: (1) a 5-digit
string such as "#FFFFF" is not rejected — the third slice `[4:6]` is the
single digit "F", so the call succeeds with blue parsed from one digit;
(2) alpha is `int(255 * p/100)`, truncation, not rounding — at p = 1 the
code yields 2 while round(2.55) = 3; (3) the opacity percent is not clamped
to [0,100] — at p = 200 the code yields alpha 510. -/
theorem C5_counterexample :
    hex_to_rgba ['#','F','F','F','F','F'] 100 = .ok (255, 255, 15, 255) ∧
    hex_to_rgba ['#','0','0','0','0','0','0'] 1 = .ok (0, 0, 0, 2) ∧
    round ((255:ℚ) * (1 / 100)) = 3 ∧
    hex_to_rgba ['#','0','0','0','0','0','0'] 200 = .ok (0, 0, 0, 510) := by
  have h1 : hex_to_rgba ['#','F','F','F','F','F'] 100 =
      .ok (255, 255, 15, pyInt (255 * ((100:ℚ) / 100))) := rfl
  have h2 : hex_to_rgba ['#','0','0','0','0','0','0'] 1 =
      .ok (0, 0, 0, pyInt (255 * ((1:ℚ) / 100))) := rfl
  have h3 : hex_to_rgba ['#','0','0','0','0','0','0'] 200 =
      .ok (0, 0, 0, pyInt (255 * ((200:ℚ) / 100))) := rfl
  refine ⟨?_, ?_, by norm_num [round_eq], ?_⟩
  · rw [h1]
    norm_num [pyInt]
  · rw [h2]
    norm_num [pyInt]
  · rw [h3]
    norm_num [pyInt]

/-- Claim C5 (amended): when the first six characters after the stripped
leading `#` are hex digits, `hex_to_rgba` succeeds — whatever follows them —
with r, g, b parsed from the three pairs and alpha `int(255*p/100)`
(truncation toward zero, p unclamped); it raises `Invalid hex color format`
when one of the three 2-character slices fails to parse, as with the
claimed examples "#ZZZZZZ" and "#FFF" (but not for every non-6-digit
string: see `C5_counterexample`). -/
theorem C5_hex_to_rgba_behavior
    (c0 c1 c2 c3 c4 c5 : Char) (v0 v1 v2 v3 v4 v5 : ℕ) (rest : List Char) (p : ℚ)
    (h0 : hexVal c0 = some v0) (h1 : hexVal c1 = some v1)
    (h2 : hexVal c2 = some v2) (h3 : hexVal c3 = some v3)
    (h4 : hexVal c4 = some v4) (h5 : hexVal c5 = some v5) :
    hex_to_rgba ('#' :: c0 :: c1 :: c2 :: c3 :: c4 :: c5 :: rest) p =
      .ok (16 * v0 + v1, 16 * v2 + v3, 16 * v4 + v5, pyInt (255 * (p / 100))) ∧
    hex_to_rgba ['#','Z','Z','Z','Z','Z','Z'] p = .error "Invalid hex color format" ∧
    hex_to_rgba ['#','F','F','F'] p = .error "Invalid hex color format" := by
  have hne : (c0 == '#') = false := by
    cases hc : c0 == '#'
    · rfl
    · exfalso
      have : c0 = '#' := by
        exact beq_iff_eq.1 hc
      rw [this] at h0
      have hz : hexVal '#' = none := by decide
      rw [hz] at h0
      cases h0
  refine ⟨?_, rfl, rfl⟩
  simp only [hex_to_rgba, List.dropWhile_cons, beq_self_eq_true, if_pos, hne,
    Bool.false_eq_true, if_false, List.take, List.drop, pyIntHex, parseHexAux, h0, h1, h2,
    h3, h4, h5]
  norm_num
  rw [if_neg (List.cons_ne_nil c0 [c1]), if_neg (List.cons_ne_nil c2 [c3]),
    if_neg (List.cons_ne_nil c4 [c5])]

/-- Witness for C5: applying the amended claim at "#5096FF" (the default
active color) with opacity 100: all six digit hypotheses hold and the parse
succeeds with the expected channels. -/
theorem C5_witness :
    hexVal '5' = some 5 ∧ hexVal '0' = some 0 ∧ hexVal '9' = some 9 ∧
    hexVal '6' = some 6 ∧ hexVal 'F' = some 15 ∧
    hex_to_rgba ('#' :: '5' :: '0' :: '9' :: '6' :: 'F' :: 'F' :: []) 100 =
      .ok (16 * 5 + 0, 16 * 9 + 6, 16 * 15 + 15, pyInt (255 * ((100:ℚ) / 100))) := by
  refine ⟨by decide, by decide, by decide, by decide, by decide, ?_⟩
  exact (C5_hex_to_rgba_behavior '5' '0' '9' '6' 'F' 'F' 5 0 9 6 15 15 [] 100
    (by decide) (by decide) (by decide) (by decide) (by decide) (by decide)).1

theorem paintedRegion_cons (s : Shape) (l : List Shape) (x y : ℚ) :
    paintedRegion (s :: l) x y ↔ s.region x y ∨ paintedRegion l x y := by
  simp [paintedRegion]

theorem paintedRegion_nil (x y : ℚ) : ¬ paintedRegion [] x y := by
  simp [paintedRegion]

theorem abs_le_of_sq_add_sq_le {a b r : ℚ} (h : a ^ 2 + b ^ 2 ≤ r ^ 2) (hr : 0 ≤ r) :
    -r ≤ a ∧ a ≤ r := by
  constructor
  · nlinarith [sq_nonneg b, sq_nonneg (a + r)]
  · nlinarith [sq_nonneg b, sq_nonneg (a - r)]

theorem drawRoundedRect_region_eq (x0 y0 x1 y1 radius r : ℚ)
    (hr : r = min radius (min ((x1 - x0) / 2) ((y1 - y0) / 2)))
    (hrpos : 0 < r) :
    ∀ x y, paintedRegion (draw_rounded_rectangle x0 y0 x1 y1 radius) x y ↔
      roundedRectRegion x0 y0 x1 y1 r x y := by
  have hrx : r ≤ (x1 - x0) / 2 := by
    rw [hr]
    exact le_trans (min_le_right _ _) (min_le_left _ _)
  have hry : r ≤ (y1 - y0) / 2 := by
    rw [hr]
    exact le_trans (min_le_right _ _) (min_le_right _ _)
  have hx01 : x0 + r ≤ x1 - r := by linarith
  have hy01 : y0 + r ≤ y1 - r := by linarith
  have hdraw : draw_rounded_rectangle x0 y0 x1 y1 radius =
      [.rect (x0 + r) y0 (x1 - r) y1,
       .rect x0 (y0 + r) x1 (y1 - r),
       .pieslice x0 y0 (x0 + 2 * r) (y0 + 2 * r) 180 270,
       .pieslice (x1 - 2 * r) y0 x1 (y0 + 2 * r) 270 360,
       .pieslice x0 (y1 - 2 * r) (x0 + 2 * r) y1 90 180,
       .pieslice (x1 - 2 * r) (y1 - 2 * r) x1 y1 0 90] := by
    simp only [draw_rounded_rectangle]
    rw [← hr, if_neg (not_le.2 hrpos)]
  intro x y
  rw [hdraw]
  simp only [paintedRegion_cons, paintedRegion_nil, or_false, Shape.region]
  norm_num only []
  have hcTL : (x0 + (x0 + 2 * r)) / 2 = x0 + r := by ring
  have hcTR : (x1 - 2 * r + x1) / 2 = x1 - r := by ring
  have hcT : (y0 + (y0 + 2 * r)) / 2 = y0 + r := by ring
  have hcB : (y1 - 2 * r + y1) / 2 = y1 - r := by ring
  have hrad1 : ((x0 + 2 * r - x0) / 2) ^ 2 = r ^ 2 := by ring
  have hrad2 : ((x1 - (x1 - 2 * r)) / 2) ^ 2 = r ^ 2 := by ring
  rw [hcTL, hcTR, hcT, hcB, hrad1, hrad2]
  unfold roundedRectRegion
  constructor
  · rintro (⟨h1, h2, h3, h4⟩ | ⟨h1, h2, h3, h4⟩ | ⟨hd, hq1, hq2⟩ | ⟨hd, hq1, hq2⟩ |
      ⟨hd, hq1, hq2⟩ | ⟨hd, hq1, hq2⟩)
    · exact ⟨by linarith, by linarith, h3, h4,
        fun hc => absurd hc.1 (by linarith),
        fun hc => absurd hc.1 (by linarith),
        fun hc => absurd hc.1 (by linarith),
        fun hc => absurd hc.1 (by linarith)⟩
    · exact ⟨h1, h2, by linarith, by linarith,
        fun hc => absurd hc.2 (by linarith),
        fun hc => absurd hc.2 (by linarith),
        fun hc => absurd hc.2 (by linarith),
        fun hc => absurd hc.2 (by linarith)⟩
    · -- top-left quarter disc
      have hdx := abs_le_of_sq_add_sq_le hd hrpos.le
      have hd2 : (y - (y0 + r)) ^ 2 + (x - (x0 + r)) ^ 2 ≤ r ^ 2 := by linarith
      have hdy := abs_le_of_sq_add_sq_le hd2 hrpos.le
      have hx : x0 ≤ x := by linarith [hdx.1]
      have hy : y0 ≤ y := by linarith [hdy.1]
      exact ⟨hx, by linarith, hy, by linarith,
        fun _ => hd,
        fun hc => absurd hc.1 (by linarith),
        fun hc => absurd hc.2 (by linarith),
        fun hc => absurd hc.1 (by linarith)⟩
    · -- top-right
      have hdx := abs_le_of_sq_add_sq_le hd hrpos.le
      have hd2 : (y - (y0 + r)) ^ 2 + (x - (x1 - r)) ^ 2 ≤ r ^ 2 := by linarith
      have hdy := abs_le_of_sq_add_sq_le hd2 hrpos.le
      have hx : x ≤ x1 := by linarith [hdx.2]
      have hy : y0 ≤ y := by linarith [hdy.1]
      exact ⟨by linarith, hx, hy, by linarith,
        fun hc => absurd hc.1 (by linarith),
        fun _ => hd,
        fun hc => absurd hc.1 (by linarith),
        fun hc => absurd hc.2 (by linarith)⟩
    · -- bottom-left
      have hdx := abs_le_of_sq_add_sq_le hd hrpos.le
      have hd2 : (y - (y1 - r)) ^ 2 + (x - (x0 + r)) ^ 2 ≤ r ^ 2 := by linarith
      have hdy := abs_le_of_sq_add_sq_le hd2 hrpos.le
      have hx : x0 ≤ x := by linarith [hdx.1]
      have hy : y ≤ y1 := by linarith [hdy.2]
      exact ⟨hx, by linarith, by linarith, hy,
        fun hc => absurd hc.2 (by linarith),
        fun hc => absurd hc.1 (by linarith),
        fun _ => hd,
        fun hc => absurd hc.1 (by linarith)⟩
    · -- bottom-right
      have hdx := abs_le_of_sq_add_sq_le hd hrpos.le
      have hd2 : (y - (y1 - r)) ^ 2 + (x - (x1 - r)) ^ 2 ≤ r ^ 2 := by linarith
      have hdy := abs_le_of_sq_add_sq_le hd2 hrpos.le
      have hx : x ≤ x1 := by linarith [hdx.2]
      have hy : y ≤ y1 := by linarith [hdy.2]
      exact ⟨by linarith, hx, by linarith, hy,
        fun hc => absurd hc.2 (by linarith),
        fun hc => absurd hc.2 (by linarith),
        fun hc => absurd hc.1 (by linarith),
        fun _ => hd⟩
  · rintro ⟨hx0, hx1, hy0, hy1, hTL, hTR, hBL, hBR⟩
    by_cases hxa : x0 + r ≤ x
    · by_cases hxb : x ≤ x1 - r
      · exact Or.inl ⟨hxa, hxb, hy0, hy1⟩
      · -- x is in the right margin
        push_neg at hxb
        by_cases hya : y0 + r ≤ y
        · by_cases hyb : y ≤ y1 - r
          · exact Or.inr (Or.inl ⟨hx0, hx1, hya, hyb⟩)
          · push_neg at hyb
            exact Or.inr (Or.inr (Or.inr (Or.inr (Or.inr
              ⟨hBR ⟨by linarith, by linarith⟩, by linarith, by linarith⟩))))
        · push_neg at hya
          exact Or.inr (Or.inr (Or.inr (Or.inl
            ⟨hTR ⟨by linarith, by linarith⟩, by linarith, by linarith⟩)))
    · push_neg at hxa
      by_cases hya : y0 + r ≤ y
      · by_cases hyb : y ≤ y1 - r
        · exact Or.inr (Or.inl ⟨hx0, hx1, hya, hyb⟩)
        · push_neg at hyb
          exact Or.inr (Or.inr (Or.inr (Or.inr (Or.inl
            ⟨hBL ⟨by linarith, by linarith⟩, by linarith, by linarith⟩))))
      · push_neg at hya
        exact Or.inr (Or.inr (Or.inl
          ⟨hTL ⟨by linarith, by linarith⟩, by linarith, by linarith⟩))


/-- Claim C6, as frozen, is false on the code: the two rectangle fills of
the decomposition overlap in the whole central region, so pixels are painted
by more than one of the six fills.  Concretely for bounds (0,0,10,10) and
radius 2 the commands include the rectangles (2,0,8,10) and (0,2,10,8),
which are distinct fills that both paint the pixel (5,5). -/
theorem C6_counterexample :
    Shape.rect 2 0 8 10 ∈ draw_rounded_rectangle 0 0 10 10 2 ∧
    Shape.rect 0 2 10 8 ∈ draw_rounded_rectangle 0 0 10 10 2 ∧
    Shape.rect 2 0 8 10 ≠ Shape.rect 0 2 10 8 ∧
    Shape.region (Shape.rect 2 0 8 10) 5 5 ∧
    Shape.region (Shape.rect 0 2 10 8) 5 5 := by
  have hdraw : draw_rounded_rectangle 0 0 10 10 2 =
      [.rect 2 0 8 10, .rect 0 2 10 8, .pieslice 0 0 4 4 180 270,
       .pieslice 6 0 10 4 270 360, .pieslice 0 6 4 10 90 180,
       .pieslice 6 6 10 10 0 90] := by
    norm_num [draw_rounded_rectangle, min_def]
  refine ⟨?_, ?_, by decide, ?_, ?_⟩
  · rw [hdraw]
    simp
  · rw [hdraw]
    simp
  · show (2:ℚ) ≤ 5 ∧ (5:ℚ) ≤ 8 ∧ (0:ℚ) ≤ 5 ∧ (5:ℚ) ≤ 10
    norm_num
  · show (0:ℚ) ≤ 5 ∧ (5:ℚ) ≤ 10 ∧ (2:ℚ) ≤ 5 ∧ (5:ℚ) ≤ 8
    norm_num

/-- Claim C6 (amended): the radius is clamped to `min(width,height)/2`; with
clamped radius ≤ 0 the call issues exactly the plain filled rectangle over
the same bounds (pixel-identical trivially); with clamped radius > 0 the six
fills together paint exactly the rounded rectangle — no gaps and nothing
outside — but the decomposition is not overlap-free: the two rectangles both
paint the whole central region (see `C6_counterexample`); the double
painting is harmless because all six fills use the same opaque fill value. -/
theorem C6_rounded_rect_decomposition (x0 y0 x1 y1 radius r : ℚ)
    (hr : r = min radius (min ((x1 - x0) / 2) ((y1 - y0) / 2))) :
    (r ≤ 0 → draw_rounded_rectangle x0 y0 x1 y1 radius = [.rect x0 y0 x1 y1]) ∧
    (0 < r →
      (∀ x y, paintedRegion (draw_rounded_rectangle x0 y0 x1 y1 radius) x y ↔
        roundedRectRegion x0 y0 x1 y1 r x y) ∧
      Shape.region (.rect (x0 + r) y0 (x1 - r) y1) ((x0 + x1) / 2) ((y0 + y1) / 2) ∧
      Shape.region (.rect x0 (y0 + r) x1 (y1 - r)) ((x0 + x1) / 2) ((y0 + y1) / 2)) := by
  constructor
  · intro hle
    simp only [draw_rounded_rectangle]
    rw [← hr, if_pos hle]
  · intro hrpos
    have hrx : r ≤ (x1 - x0) / 2 := by
      rw [hr]
      exact le_trans (min_le_right _ _) (min_le_left _ _)
    have hry : r ≤ (y1 - y0) / 2 := by
      rw [hr]
      exact le_trans (min_le_right _ _) (min_le_right _ _)
    refine ⟨drawRoundedRect_region_eq x0 y0 x1 y1 radius r hr hrpos, ?_, ?_⟩
    · show x0 + r ≤ (x0 + x1) / 2 ∧ (x0 + x1) / 2 ≤ x1 - r ∧
        y0 ≤ (y0 + y1) / 2 ∧ (y0 + y1) / 2 ≤ y1
      refine ⟨by linarith, by linarith, by linarith, by linarith⟩
    · show x0 ≤ (x0 + x1) / 2 ∧ (x0 + x1) / 2 ≤ x1 ∧
        y0 + r ≤ (y0 + y1) / 2 ∧ (y0 + y1) / 2 ≤ y1 - r
      refine ⟨by linarith, by linarith, by linarith, by linarith⟩

/-- Witness for C6: at bounds (0,0,10,10) the amended claim applies with
radius -1 (clamped radius -1 ≤ 0: plain rectangle) and with radius 2
(clamped radius 2 > 0: exact tiling and double-painted centre). -/
theorem C6_witness :
    draw_rounded_rectangle 0 0 10 10 (-1) = [Shape.rect 0 0 10 10] ∧
    ((∀ x y, paintedRegion (draw_rounded_rectangle 0 0 10 10 2) x y ↔
        roundedRectRegion 0 0 10 10 2 x y) ∧
      Shape.region (.rect (0 + 2) 0 (10 - 2) 10) ((0 + 10) / 2) ((0 + 10) / 2) ∧
      Shape.region (.rect 0 (0 + 2) 10 (10 - 2)) ((0 + 10) / 2) ((0 + 10) / 2)) := by
  constructor
  · exact (C6_rounded_rect_decomposition 0 0 10 10 (-1) (-1)
      (by norm_num [min_def])).1 (by norm_num)
  · exact (C6_rounded_rect_decomposition 0 0 10 10 2 2
      (by norm_num [min_def])).2 (by norm_num)

/-- Claim C7 names a global disable of the active-word style: the repository
demonstrably intends that feature (the UI checkbox defaults to
`disable_active_style: True` and `app.py` forwards it), but the rendering
core lacks it — `render_subtitled_video` accepts no `disable_active_style`
(or `selected_font`) parameter, so the app's render call raises `TypeError`
(and `app.py` line 11 imports `_wrap_text`, which `subtitle_core` does not
define, so the import itself raises); and `make_frame`'s per-word dispatch
styles the time-active word with the active values unconditionally, as the
evaluation at a concrete active word shows. -/
theorem C7_code_eval :
    "disable_active_style" ∈ appRenderCallKwargs ∧
    "disable_active_style" ∉ renderSubtitledVideoParams ∧
    "selected_font" ∈ appRenderCallKwargs ∧
    "selected_font" ∉ renderSubtitledVideoParams ∧
    "_wrap_text" ∈ appImportsFromSubtitleCore ∧
    "_wrap_text" ∉ subtitleCoreDefs ∧
    activeOrNormal (⟨['h','i'], 0, 1⟩ : Word) 0 "active-style" "normal-style" =
      "active-style" ∧
    "active-style" ≠ "normal-style" := by
  decide

theorem natToCharsGo_fuel :
    ∀ fuel fuel2 n : ℕ, n ≤ fuel → n ≤ fuel2 →
      natToCharsGo fuel n = natToCharsGo fuel2 n := by
  intro fuel
  induction fuel with
  | zero =>
    intro fuel2 n h1 _
    have hn : n = 0 := by omega
    subst hn
    cases fuel2 with
    | zero => rfl
    | succ f2 =>
      show ['0'] = if 0 < 10 then [digitChar 0] else natToCharsGo f2 (0 / 10) ++ [digitChar (0 % 10)]
      rw [if_pos (by omega)]
      decide
  | succ f ih =>
    intro fuel2 n h1 h2
    cases fuel2 with
    | zero =>
      have hn : n = 0 := by omega
      subst hn
      show (if 0 < 10 then [digitChar 0] else natToCharsGo f (0 / 10) ++ [digitChar (0 % 10)]) = ['0']
      rw [if_pos (by omega)]
      decide
    | succ f2 =>
      show (if n < 10 then [digitChar n] else natToCharsGo f (n / 10) ++ [digitChar (n % 10)]) =
        (if n < 10 then [digitChar n] else natToCharsGo f2 (n / 10) ++ [digitChar (n % 10)])
      by_cases h : n < 10
      · rw [if_pos h, if_pos h]
      · rw [if_neg h, if_neg h,
          ih f2 (n / 10) (by omega) (by omega)]

theorem natToChars_eq (n : ℕ) :
    natToChars n =
      if n < 10 then [digitChar n]
      else natToChars (n / 10) ++ [digitChar (n % 10)] := by
  rw [natToChars, natToChars]
  by_cases h : n < 10
  · rw [if_pos h]
    cases n with
    | zero => rfl
    | succ m =>
      show (if m + 1 < 10 then _ else _) = _
      rw [if_pos h]
  · rw [if_neg h]
    cases n with
    | zero => omega
    | succ m =>
      show (if m + 1 < 10 then _ else _) = _
      rw [if_neg h, natToCharsGo_fuel m ((m + 1) / 10) ((m + 1) / 10) (by omega) le_rfl]

theorem modifyHead_comp (f g : List Char → List Char) (l : List (List Char)) :
    (l.modifyHead g).modifyHead f = l.modifyHead (fun x => f (g x)) := by
  cases l <;> rfl

theorem splitOnNN_cons_guard (c : Char) (rest : List Char)
    (h : ∀ r, c = '\n' → rest = '\n' :: r → False) :
    splitOnNN (c :: rest) = (splitOnNN rest).modifyHead (c :: ·) := by
  rw [splitOnNN]
  exact h

theorem splitOnNN_cons_ne (c : Char) (rest : List Char) (hc : c ≠ '\n') :
    splitOnNN (c :: rest) = (splitOnNN rest).modifyHead (c :: ·) :=
  splitOnNN_cons_guard c rest (fun _ h1 _ => hc h1)

theorem splitOnNN_nl_cons (m : List Char) (hm : m.take 1 ≠ ['\n']) :
    splitOnNN ('\n' :: m) = (splitOnNN m).modifyHead ('\n' :: ·) := by
  refine splitOnNN_cons_guard '\n' m (fun r _ h2 => ?_)
  rw [h2] at hm
  simp at hm

theorem splitOnNN_ne_nil : ∀ l : List Char, splitOnNN l ≠ [] := by
  intro l
  induction l using splitOnNN.induct with
  | case1 rest ih => simp [splitOnNN]
  | case2 c rest h ih =>
    rw [splitOnNN_cons_guard c rest h]
    cases hsp : splitOnNN rest with
    | nil => exact absurd hsp ih
    | cons b bs => simp
  | case3 => simp [splitOnNN]

theorem splitOnNN_append_no_nl :
    ∀ (l m : List Char), '\n' ∉ l →
      splitOnNN (l ++ m) = (splitOnNN m).modifyHead (l ++ ·) := by
  intro l
  induction l with
  | nil =>
    intro m _
    simp only [List.nil_append]
    obtain ⟨b, bs, hb⟩ := List.exists_cons_of_ne_nil (splitOnNN_ne_nil m)
    rw [hb]
    rfl
  | cons c cs ih =>
    intro m hl
    have hc : c ≠ '\n' := fun h => hl (h ▸ List.mem_cons_self c cs)
    have hcs : '\n' ∉ cs := fun h => hl (List.mem_cons_of_mem c h)
    rw [List.cons_append, splitOnNN_cons_ne c (cs ++ m) hc, ih m hcs, modifyHead_comp]
    rfl

theorem splitOnNN_no_nl (l : List Char) (hl : '\n' ∉ l) : splitOnNN l = [l] := by
  have h := splitOnNN_append_no_nl l [] hl
  rw [List.append_nil] at h
  rw [h]
  show [l ++ []] = [l]
  rw [List.append_nil]

theorem splitOnNN_nlnl (m : List Char) : splitOnNN ('\n' :: '\n' :: m) = [] :: splitOnNN m :=
  rfl

theorem take_one_ne_nl (l : List Char) (hnl : '\n' ∉ l) : l.take 1 ≠ ['\n'] := by
  cases l with
  | nil => simp
  | cons c cs =>
    have hc : c ≠ '\n' := fun h => hnl (h ▸ List.mem_cons_self c cs)
    simp [hc]

theorem take_one_append_ne_nl (l m : List Char) (hne : l ≠ []) (hnl : '\n' ∉ l) :
    (l ++ m).take 1 ≠ ['\n'] := by
  cases l with
  | nil => exact absurd rfl hne
  | cons c cs =>
    have hc : c ≠ '\n' := fun h => hnl (h ▸ List.mem_cons_self c cs)
    simp [hc]

theorem splitOnNN_block (idx ts text m : List Char)
    (hidx : '\n' ∉ idx) (hts : '\n' ∉ ts) (htext : '\n' ∉ text)
    (htsne : ts ≠ []) (htextne : text ≠ []) :
    splitOnNN (idx ++ ('\n' :: (ts ++ ('\n' :: (text ++ '\n' :: '\n' :: m))))) =
      (idx ++ ('\n' :: (ts ++ ('\n' :: text)))) :: splitOnNN m := by
  have h1 : splitOnNN (text ++ '\n' :: '\n' :: m) = text :: splitOnNN m := by
    rw [splitOnNN_append_no_nl text _ htext, splitOnNN_nlnl]
    show (text ++ []) :: splitOnNN m = text :: splitOnNN m
    rw [List.append_nil]
  have h2 : splitOnNN ('\n' :: (text ++ '\n' :: '\n' :: m)) =
      ('\n' :: text) :: splitOnNN m := by
    rw [splitOnNN_nl_cons _ (take_one_append_ne_nl text _ htextne htext), h1]
    rfl
  have h3 : splitOnNN (ts ++ ('\n' :: (text ++ '\n' :: '\n' :: m))) =
      (ts ++ ('\n' :: text)) :: splitOnNN m := by
    rw [splitOnNN_append_no_nl ts _ hts, h2]
    rfl
  have h4 : splitOnNN ('\n' :: (ts ++ ('\n' :: (text ++ '\n' :: '\n' :: m)))) =
      ('\n' :: (ts ++ ('\n' :: text))) :: splitOnNN m := by
    rw [splitOnNN_nl_cons _ (take_one_append_ne_nl ts _ htsne hts), h3]
    rfl
  rw [splitOnNN_append_no_nl idx _ hidx, h4]
  rfl

theorem splitOnNN_block_last (idx ts text : List Char)
    (hidx : '\n' ∉ idx) (hts : '\n' ∉ ts) (htext : '\n' ∉ text) (htsne : ts ≠ []) :
    splitOnNN (idx ++ ('\n' :: (ts ++ ('\n' :: text)))) =
      [idx ++ ('\n' :: (ts ++ ('\n' :: text)))] := by
  have h1 : splitOnNN text = [text] := splitOnNN_no_nl text htext
  have h2 : splitOnNN ('\n' :: text) = ['\n' :: text] := by
    rw [splitOnNN_nl_cons _ (take_one_ne_nl text htext), h1]
    rfl
  have h3 : splitOnNN (ts ++ ('\n' :: text)) = [ts ++ ('\n' :: text)] := by
    rw [splitOnNN_append_no_nl ts _ hts, h2]
    rfl
  have h4 : splitOnNN ('\n' :: (ts ++ ('\n' :: text))) = ['\n' :: (ts ++ ('\n' :: text))] := by
    rw [splitOnNN_nl_cons _ (take_one_append_ne_nl ts _ htsne hts), h3]
    rfl
  rw [splitOnNN_append_no_nl idx _ hidx, h4]
  rfl

theorem splitOnNL_nl (m : List Char) : splitOnNL ('\n' :: m) = [] :: splitOnNL m :=
  rfl

theorem splitOnNL_cons_ne (c : Char) (rest : List Char) (hc : c ≠ '\n') :
    splitOnNL (c :: rest) = (splitOnNL rest).modifyHead (c :: ·) := by
  rw [splitOnNL]
  exact fun h => hc h

theorem splitOnNL_ne_nil : ∀ l : List Char, splitOnNL l ≠ [] := by
  intro l
  induction l using splitOnNL.induct with
  | case1 rest ih => simp [splitOnNL]
  | case2 c rest h ih =>
    rw [splitOnNL_cons_ne c rest h]
    cases hsp : splitOnNL rest with
    | nil => exact absurd hsp ih
    | cons b bs => simp
  | case3 => simp [splitOnNL]

theorem splitOnNL_append_no_nl :
    ∀ (l m : List Char), '\n' ∉ l →
      splitOnNL (l ++ m) = (splitOnNL m).modifyHead (l ++ ·) := by
  intro l
  induction l with
  | nil =>
    intro m _
    simp only [List.nil_append]
    obtain ⟨b, bs, hb⟩ := List.exists_cons_of_ne_nil (splitOnNL_ne_nil m)
    rw [hb]
    rfl
  | cons c cs ih =>
    intro m hl
    have hc : c ≠ '\n' := fun h => hl (h ▸ List.mem_cons_self c cs)
    have hcs : '\n' ∉ cs := fun h => hl (List.mem_cons_of_mem c h)
    rw [List.cons_append, splitOnNL_cons_ne c (cs ++ m) hc, ih m hcs, modifyHead_comp]
    rfl

theorem splitOnNL_no_nl (l : List Char) (hl : '\n' ∉ l) : splitOnNL l = [l] := by
  have h := splitOnNL_append_no_nl l [] hl
  rw [List.append_nil] at h
  rw [h]
  show [l ++ []] = [l]
  rw [List.append_nil]

theorem splitOnNL_block (idx ts text : List Char)
    (hidx : '\n' ∉ idx) (hts : '\n' ∉ ts) (htext : '\n' ∉ text) :
    splitOnNL (idx ++ ('\n' :: (ts ++ ('\n' :: text)))) = [idx, ts, text] := by
  have h1 : splitOnNL ('\n' :: text) = [[], text] := by
    rw [splitOnNL_nl, splitOnNL_no_nl text htext]
  have h2 : splitOnNL (ts ++ ('\n' :: text)) = [ts, text] := by
    rw [splitOnNL_append_no_nl ts _ hts, h1]
    show [ts ++ [], text] = [ts, text]
    rw [List.append_nil]
  have h3 : splitOnNL ('\n' :: (ts ++ ('\n' :: text))) = [[], ts, text] := by
    rw [splitOnNL_nl, h2]
  rw [splitOnNL_append_no_nl idx _ hidx, h3]
  show [idx ++ [], ts, text] = [idx, ts, text]
  rw [List.append_nil]

theorem splitOnArrow_arrow (m : List Char) :
    splitOnArrow (' ' :: '-' :: '-' :: '>' :: ' ' :: m) = [] :: splitOnArrow m :=
  rfl

theorem splitOnArrow_cons_ne (c : Char) (rest : List Char) (hc : c ≠ ' ') :
    splitOnArrow (c :: rest) = (splitOnArrow rest).modifyHead (c :: ·) := by
  rw [splitOnArrow]
  exact fun r h1 _ => hc h1

theorem splitOnArrow_ne_nil : ∀ l : List Char, splitOnArrow l ≠ [] := by
  intro l
  induction l using splitOnArrow.induct with
  | case1 rest ih => simp [splitOnArrow]
  | case2 c rest h ih =>
    rw [splitOnArrow]
    · cases hsp : splitOnArrow rest with
      | nil => exact absurd hsp ih
      | cons b bs => simp
    · exact h
  | case3 => simp [splitOnArrow]

theorem splitOnArrow_append_no_space :
    ∀ (l m : List Char), (∀ c ∈ l, c ≠ ' ') →
      splitOnArrow (l ++ m) = (splitOnArrow m).modifyHead (l ++ ·) := by
  intro l
  induction l with
  | nil =>
    intro m _
    simp only [List.nil_append]
    obtain ⟨b, bs, hb⟩ := List.exists_cons_of_ne_nil (splitOnArrow_ne_nil m)
    rw [hb]
    rfl
  | cons c cs ih =>
    intro m hl
    have hc : c ≠ ' ' := hl c (List.mem_cons_self c cs)
    have hcs : ∀ x ∈ cs, x ≠ ' ' := fun x hx => hl x (List.mem_cons_of_mem c hx)
    rw [List.cons_append, splitOnArrow_cons_ne c (cs ++ m) hc, ih m hcs, modifyHead_comp]
    rfl

theorem splitOnArrow_no_space (l : List Char) (hl : ∀ c ∈ l, c ≠ ' ') :
    splitOnArrow l = [l] := by
  have h := splitOnArrow_append_no_space l [] hl
  rw [List.append_nil] at h
  rw [h]
  show [l ++ []] = [l]
  rw [List.append_nil]

theorem splitOnArrow_two (f1 f2 : List Char)
    (h1 : ∀ c ∈ f1, c ≠ ' ') (h2 : ∀ c ∈ f2, c ≠ ' ') :
    splitOnArrow (f1 ++ (arrowSep ++ f2)) = [f1, f2] := by
  have ha : splitOnArrow (arrowSep ++ f2) = [] :: splitOnArrow f2 := by
    show splitOnArrow (' ' :: '-' :: '-' :: '>' :: ' ' :: f2) = [] :: splitOnArrow f2
    exact splitOnArrow_arrow f2
  rw [splitOnArrow_append_no_space f1 _ h1, ha, splitOnArrow_no_space f2 h2]
  show [f1 ++ [], f2] = [f1, f2]
  rw [List.append_nil]

theorem headNonWS_ne_nil (l : List Char) (h : headNonWS l = true) : l ≠ [] := by
  cases l with
  | nil => simp [headNonWS] at h
  | cons c cs => simp

theorem headNonWS_append (l m : List Char) (hl : l ≠ []) :
    headNonWS (l ++ m) = headNonWS l := by
  cases l with
  | nil => exact absurd rfl hl
  | cons c cs => rfl

theorem lstripWS_eq_self (l : List Char) (h : headNonWS l = true) : lstripWS l = l := by
  cases l with
  | nil => rfl
  | cons c cs =>
    have hc : isPySpace c = false := by
      simpa [headNonWS] using h
    simp [lstripWS, List.dropWhile_cons, hc]

theorem rstripWS_eq_self (l : List Char) (h : headNonWS l.reverse = true) : rstripWS l = l := by
  rw [rstripWS]
  rw [show l.reverse.dropWhile isPySpace = lstripWS l.reverse from rfl,
    lstripWS_eq_self l.reverse h, List.reverse_reverse]

theorem stripWS_eq_self (l : List Char) (h1 : headNonWS l = true)
    (h2 : headNonWS l.reverse = true) : stripWS l = l := by
  rw [stripWS, lstripWS_eq_self l h1, rstripWS_eq_self l h2]

theorem rstripWS_append_nn (l : List Char) :
    rstripWS (l ++ ['\n', '\n']) = rstripWS l := by
  rw [rstripWS, rstripWS]
  have h : (l ++ ['\n', '\n']).reverse = '\n' :: '\n' :: l.reverse := by
    simp
  rw [h]
  simp [List.dropWhile_cons, show isPySpace '\n' = true from rfl]

theorem stripWS_append_nn (J : List Char) (h1 : headNonWS J = true)
    (h2 : headNonWS J.reverse = true) : stripWS (J ++ ['\n', '\n']) = J := by
  rw [stripWS]
  have hJne : J ≠ [] := headNonWS_ne_nil J h1
  rw [lstripWS_eq_self _ (by rw [headNonWS_append _ _ hJne]; exact h1)]
  rw [rstripWS_append_nn, rstripWS_eq_self J h2]

theorem headNonWS_dropWhile (l : List Char) :
    l.dropWhile isPySpace = [] ∨ headNonWS (l.dropWhile isPySpace) = true := by
  induction l with
  | nil => exact Or.inl rfl
  | cons c cs ih =>
    by_cases hc : isPySpace c = true
    · rw [List.dropWhile_cons, if_pos hc]
      exact ih
    · right
      rw [List.dropWhile_cons, if_neg hc]
      simp only [headNonWS]
      simp only [Bool.not_eq_true] at hc
      rw [hc]
      rfl

theorem stripWS_props (l : List Char) :
    stripWS l = [] ∨
      (headNonWS (stripWS l) = true ∧ headNonWS (stripWS l).reverse = true) := by
  rcases headNonWS_dropWhile l with ha | ha
  · left
    rw [stripWS, show lstripWS l = [] from ha]
    rfl
  · rcases headNonWS_dropWhile (lstripWS l).reverse with hb | hb
    · left
      rw [stripWS, rstripWS, hb]
      rfl
    · right
      have hbne : (lstripWS l).reverse.dropWhile isPySpace ≠ [] := by
        intro hx
        rw [hx] at hb
        simp [headNonWS] at hb
      have hsplit : (lstripWS l).reverse.takeWhile isPySpace ++
          (lstripWS l).reverse.dropWhile isPySpace = (lstripWS l).reverse :=
        List.takeWhile_append_dropWhile isPySpace (lstripWS l).reverse
      have ha2 : lstripWS l = ((lstripWS l).reverse.dropWhile isPySpace).reverse ++
          ((lstripWS l).reverse.takeWhile isPySpace).reverse := by
        calc lstripWS l = (lstripWS l).reverse.reverse := (List.reverse_reverse _).symm
        _ = ((lstripWS l).reverse.takeWhile isPySpace ++
            (lstripWS l).reverse.dropWhile isPySpace).reverse := by rw [hsplit]
        _ = _ := by rw [List.reverse_append]
      constructor
      · rw [stripWS, rstripWS]
        have hrevne : ((lstripWS l).reverse.dropWhile isPySpace).reverse ≠ [] := by
          simpa using hbne
        have hh := headNonWS_append (((lstripWS l).reverse.dropWhile isPySpace).reverse)
          (((lstripWS l).reverse.takeWhile isPySpace).reverse) hrevne
        rw [← hh, ← ha2]
        exact ha
      · rw [stripWS, rstripWS, List.reverse_reverse]
        exact hb

theorem stripWS_sublist (l : List Char) : List.Sublist (stripWS l) l := by
  have h1 : List.Sublist (lstripWS l) l := List.dropWhile_sublist isPySpace
  have h2 : List.Sublist ((lstripWS l).reverse.dropWhile isPySpace) (lstripWS l).reverse :=
    List.dropWhile_sublist isPySpace
  have h3 : List.Sublist (stripWS l) (lstripWS l) := by
    rw [stripWS, rstripWS]
    have := h2.reverse
    rwa [List.reverse_reverse] at this
  exact h3.trans h1

theorem mem_stripWS (c : Char) (l : List Char) (h : c ∈ stripWS l) : c ∈ l :=
  (stripWS_sublist l).subset h

theorem digitChar_props (d : ℕ) (hd : d < 10) :
    isPySpace (digitChar d) = false ∧ digitChar d ≠ '\n' ∧ digitChar d ≠ ' ' := by
  interval_cases d <;> exact ⟨rfl, by decide, by decide⟩

theorem natToChars_ne_nil (n : ℕ) : natToChars n ≠ [] := by
  rw [natToChars_eq]
  split_ifs with h
  · simp
  · simp

theorem natToChars_mem (n : ℕ) : ∀ c ∈ natToChars n, ∃ d, d < 10 ∧ c = digitChar d := by
  induction n using Nat.strong_induction_on with
  | _ n ih =>
    rw [natToChars_eq]
    split_ifs with h
    · intro c hc
      simp at hc
      exact ⟨n, h, hc⟩
    · intro c hc
      rcases List.mem_append.1 hc with hc | hc
      · exact ih (n / 10) (Nat.div_lt_self (by omega) (by omega)) c hc
      · simp at hc
        exact ⟨n % 10, Nat.mod_lt _ (by omega), hc⟩

theorem natToChars_no_nl (n : ℕ) : '\n' ∉ natToChars n := by
  intro h
  obtain ⟨d, hd, hc⟩ := natToChars_mem n _ h
  exact (digitChar_props d hd).2.1 hc.symm

theorem natToChars_no_space (n : ℕ) : ' ' ∉ natToChars n := by
  intro h
  obtain ⟨d, hd, hc⟩ := natToChars_mem n _ h
  exact (digitChar_props d hd).2.2 hc.symm

theorem natToChars_headNonWS (n : ℕ) : headNonWS (natToChars n) = true := by
  cases hnc : natToChars n with
  | nil => exact absurd hnc (natToChars_ne_nil n)
  | cons c cs =>
    have hc : c ∈ natToChars n := by
      rw [hnc]
      exact List.mem_cons_self c cs
    obtain ⟨d, hd, hceq⟩ := natToChars_mem n c hc
    simp only [headNonWS, hceq, (digitChar_props d hd).1]
    rfl

theorem pad2_mem (n : ℤ) : ∀ c ∈ pad2 n, ∃ d, d < 10 ∧ c = digitChar d := by
  intro c hc
  rw [pad2] at hc
  split_ifs at hc with h
  · rcases List.mem_cons.1 hc with rfl | hc
    · exact ⟨0, by omega, rfl⟩
    · exact natToChars_mem _ c hc
  · exact natToChars_mem _ c hc

theorem pad3_mem (n : ℤ) : ∀ c ∈ pad3 n, ∃ d, d < 10 ∧ c = digitChar d := by
  intro c hc
  rw [pad3] at hc
  split_ifs at hc with h1 h2
  · rcases List.mem_cons.1 hc with rfl | hc
    · exact ⟨0, by omega, rfl⟩
    · rcases List.mem_cons.1 hc with rfl | hc
      · exact ⟨0, by omega, rfl⟩
      · exact natToChars_mem _ c hc
  · rcases List.mem_cons.1 hc with rfl | hc
    · exact ⟨0, by omega, rfl⟩
    · exact natToChars_mem _ c hc
  · exact natToChars_mem _ c hc

theorem pad2_ne_nil (n : ℤ) : pad2 n ≠ [] := by
  rw [pad2]
  split_ifs with h
  · simp
  · exact natToChars_ne_nil _

theorem format_time_mem (s : ℚ) :
    ∀ c ∈ _format_time s, (∃ d, d < 10 ∧ c = digitChar d) ∨ c = ':' ∨ c = ',' := by
  intro c hc
  simp only [_format_time, List.mem_append, List.mem_cons] at hc
  rcases hc with ((h | (rfl | h)) | (rfl | h)) | (rfl | h)
  · exact Or.inl (pad2_mem _ c h)
  · exact Or.inr (Or.inl rfl)
  · exact Or.inl (pad2_mem _ c h)
  · exact Or.inr (Or.inl rfl)
  · exact Or.inl (pad2_mem _ c h)
  · exact Or.inr (Or.inr rfl)
  · exact Or.inl (pad3_mem _ c h)

theorem format_time_no_nl (s : ℚ) : '\n' ∉ _format_time s := by
  intro h
  rcases format_time_mem s _ h with ⟨d, hd, hc⟩ | h | h
  · exact (digitChar_props d hd).2.1 hc.symm
  · cases h
  · cases h

theorem format_time_no_space (s : ℚ) : ∀ c ∈ _format_time s, c ≠ ' ' := by
  intro c hc
  rcases format_time_mem s _ hc with ⟨d, hd, hc2⟩ | rfl | rfl
  · rw [hc2]
    exact (digitChar_props d hd).2.2
  · decide
  · decide

theorem format_time_ne_nil (s : ℚ) : _format_time s ≠ [] := by
  simp only [_format_time]
  intro h
  simp at h

theorem intercalate_space_cons_cons (x y : List Char) (t : List (List Char)) :
    List.intercalate [' '] (x :: y :: t) = x ++ (' ' :: List.intercalate [' '] (y :: t)) := by
  simp [List.intercalate, List.intersperse]

theorem intercalate_space_singleton (x : List Char) : List.intercalate [' '] [x] = x := by
  simp [List.intercalate]

theorem mem_intercalate_space (c : Char) :
    ∀ L : List (List Char), c ∈ List.intercalate [' '] L → c = ' ' ∨ ∃ x ∈ L, c ∈ x := by
  intro L
  induction L with
  | nil =>
    intro h
    simp [List.intercalate] at h
  | cons x t ih =>
    cases t with
    | nil =>
      intro h
      rw [intercalate_space_singleton] at h
      exact Or.inr ⟨x, by simp, h⟩
    | cons y t2 =>
      intro h
      rw [intercalate_space_cons_cons] at h
      rcases List.mem_append.1 h with h | h
      · exact Or.inr ⟨x, by simp, h⟩
      · rcases List.mem_cons.1 h with rfl | h
        · exact Or.inl rfl
        · rcases ih h with h | ⟨z, hz, hc⟩
          · exact Or.inl h
          · exact Or.inr ⟨z, List.mem_cons_of_mem x hz, hc⟩

theorem textOf_no_nl (seg : Segment) (hw : ∀ w ∈ seg.words, '\n' ∉ w.word) :
    '\n' ∉ textOf seg := by
  intro h
  have h2 := mem_stripWS _ _ h
  rcases mem_intercalate_space _ _ h2 with h3 | ⟨x, hx, hc⟩
  · cases h3
  · rw [List.mem_map] at hx
    obtain ⟨w, hw2, rfl⟩ := hx
    exact hw w hw2 hc

theorem textOf_strip_props (seg : Segment) (hne : textOf seg ≠ []) :
    headNonWS (textOf seg) = true ∧ headNonWS (textOf seg).reverse = true := by
  rcases stripWS_props (List.intercalate [' '] (seg.words.map (fun w => w.word))) with h | h
  · exact absurd h hne
  · exact h

theorem dropWhile_append_of_ne_nil (p : Char → Bool) :
    ∀ (a b : List Char), a.dropWhile p ≠ [] →
      (a ++ b).dropWhile p = a.dropWhile p ++ b := by
  intro a
  induction a with
  | nil => intro b h; exact absurd rfl h
  | cons c cs ih =>
    intro b h
    by_cases hc : p c = true
    · rw [List.dropWhile_cons, if_pos hc] at h
      rw [List.cons_append, List.dropWhile_cons, if_pos hc, List.dropWhile_cons, if_pos hc]
      exact ih b h
    · rw [List.cons_append, List.dropWhile_cons, if_neg hc, List.dropWhile_cons, if_neg hc]
      rfl

theorem rstripWS_append_of_ne_nil (X Y : List Char) (h : rstripWS Y ≠ []) :
    rstripWS (X ++ Y) = X ++ rstripWS Y := by
  have hdw : Y.reverse.dropWhile isPySpace ≠ [] := by
    intro hx
    rw [rstripWS, hx] at h
    exact h rfl
  rw [rstripWS, List.reverse_append, dropWhile_append_of_ne_nil isPySpace _ _ hdw,
    List.reverse_append, List.reverse_reverse, rstripWS]

theorem rstripWS_ne_nil_of_headNonWS (l : List Char) (h : headNonWS l = true) :
    rstripWS l ≠ [] := by
  intro hx
  have hdw : l.reverse.dropWhile isPySpace = [] := by
    rw [rstripWS] at hx
    simpa using hx
  rw [List.dropWhile_eq_nil_iff] at hdw
  cases l with
  | nil => simp [headNonWS] at h
  | cons c cs =>
    have hc : isPySpace c = true := hdw c (by simp)
    simp [headNonWS, hc] at h

theorem headNonWS_reverse_append (a b : List Char) (hb : b ≠ []) :
    headNonWS (a ++ b).reverse = headNonWS b.reverse := by
  rw [List.reverse_append]
  exact headNonWS_append _ _ (by simpa using hb)

theorem headNonWS_reverse_cons (c : Char) (b : List Char) (hb : b ≠ []) :
    headNonWS (c :: b).reverse = headNonWS b.reverse := by
  rw [List.reverse_cons]
  exact headNonWS_append _ _ (by simpa using hb)

theorem tsLine_no_nl (a b : ℚ) :
    '\n' ∉ _format_time a ++ (arrowSep ++ _format_time b) := by
  intro h
  rcases List.mem_append.1 h with h | h
  · exact format_time_no_nl a h
  · rcases List.mem_append.1 h with h | h
    · simp [arrowSep] at h
    · exact format_time_no_nl b h

theorem tsLine_ne_nil (a b : ℚ) :
    _format_time a ++ (arrowSep ++ _format_time b) ≠ [] := by
  intro h
  rcases List.append_eq_nil.1 h with ⟨h1, -⟩
  exact format_time_ne_nil a h1

theorem renderBlock_headNonWS (i : ℕ) (seg : Segment) (t : List Char) :
    headNonWS (renderBlock i seg t) = true := by
  rw [renderBlock, headNonWS_append _ _ (natToChars_ne_nil (i + 1))]
  exact natToChars_headNonWS (i + 1)

theorem renderBlock_reverse_headNonWS (i : ℕ) (seg : Segment) (t : List Char)
    (htne : t ≠ []) (ht : headNonWS t.reverse = true) :
    headNonWS (renderBlock i seg t).reverse = true := by
  rw [renderBlock]
  rw [headNonWS_reverse_append _ _ (by simp)]
  rw [headNonWS_reverse_cons _ _ (by
    intro hx
    rcases List.append_eq_nil.1 hx with ⟨-, h2⟩
    simp at h2)]
  rw [headNonWS_reverse_append _ _ (by simp)]
  rw [headNonWS_reverse_cons _ _ htne]
  exact ht

theorem renderBlock_ne_nil (i : ℕ) (seg : Segment) (t : List Char) :
    renderBlock i seg t ≠ [] := by
  rw [renderBlock]
  intro h
  rcases List.append_eq_nil.1 h with ⟨h1, -⟩
  exact natToChars_ne_nil (i + 1) h1

theorem splitOnNN_renderBlock_cons (i : ℕ) (seg : Segment) (t m : List Char)
    (htnl : '\n' ∉ t) (htne : t ≠ []) :
    splitOnNN (renderBlock i seg t ++ '\n' :: '\n' :: m) =
      renderBlock i seg t :: splitOnNN m := by
  have h := splitOnNN_block (natToChars (i + 1))
    (_format_time seg.start ++ (arrowSep ++ _format_time seg.«end»)) t m
    (natToChars_no_nl _) (tsLine_no_nl _ _) htnl (tsLine_ne_nil _ _) htne
  rw [renderBlock]
  simpa [List.append_assoc] using h

theorem splitOnNN_renderBlock_last (i : ℕ) (seg : Segment) (t : List Char)
    (htnl : '\n' ∉ t) :
    splitOnNN (renderBlock i seg t) = [renderBlock i seg t] := by
  rw [renderBlock]
  exact splitOnNN_block_last _ _ _ (natToChars_no_nl _) (tsLine_no_nl _ _) htnl
    (tsLine_ne_nil _ _)

theorem stripWS_splitOnNN_buildSrtGo :
    ∀ (segs : List Segment) (texts : List (List Char)) (i : ℕ),
      texts.length = segs.length →
      (∀ t ∈ texts, goodText t) →
      segs ≠ [] →
      splitOnNN (stripWS (buildSrtGo i segs texts)) = blockList i segs texts := by
  intro segs
  induction segs with
  | nil =>
    intro texts i _ _ h3
    exact absurd rfl h3
  | cons seg ss ih =>
    intro texts i hlen hgood _
    cases texts with
    | nil => simp at hlen
    | cons t ts =>
      obtain ⟨htne, htnl, hth, htr⟩ : goodText t := hgood t (List.mem_cons_self t ts)
      cases ss with
      | nil =>
        have hts : ts = [] := List.length_eq_zero.1 (by simpa using hlen)
        subst hts
        show splitOnNN (stripWS (renderBlock i seg t ++ '\n' :: '\n' :: [])) =
          [renderBlock i seg t]
        have hstrip : stripWS (renderBlock i seg t ++ ['\n', '\n']) = renderBlock i seg t :=
          stripWS_append_nn _ (renderBlock_headNonWS i seg t)
            (renderBlock_reverse_headNonWS i seg t htne htr)
        rw [show renderBlock i seg t ++ '\n' :: '\n' :: [] =
          renderBlock i seg t ++ ['\n', '\n'] from rfl, hstrip]
        exact splitOnNN_renderBlock_last i seg t htnl
      | cons s2 ss2 =>
        cases ts with
        | nil => simp at hlen
        | cons t2 ts2 =>
          have hlen2 : (t2 :: ts2).length = (s2 :: ss2).length := by simpa using hlen
          have hgood2 : ∀ x ∈ t2 :: ts2, goodText x :=
            fun x hx => hgood x (List.mem_cons_of_mem t hx)
          show splitOnNN (stripWS (renderBlock i seg t ++
            '\n' :: '\n' :: buildSrtGo (i + 1) (s2 :: ss2) (t2 :: ts2))) =
            renderBlock i seg t :: blockList (i + 1) (s2 :: ss2) (t2 :: ts2)
          have hrhead : headNonWS (buildSrtGo (i + 1) (s2 :: ss2) (t2 :: ts2)) = true := by
            show headNonWS (renderBlock (i + 1) s2 t2 ++ _) = true
            rw [headNonWS_append _ _ (renderBlock_ne_nil _ _ _)]
            exact renderBlock_headNonWS _ _ _
          have hwhole : headNonWS (renderBlock i seg t ++
              '\n' :: '\n' :: buildSrtGo (i + 1) (s2 :: ss2) (t2 :: ts2)) = true := by
            rw [headNonWS_append _ _ (renderBlock_ne_nil _ _ _)]
            exact renderBlock_headNonWS _ _ _
          have hrne : rstripWS (buildSrtGo (i + 1) (s2 :: ss2) (t2 :: ts2)) ≠ [] :=
            rstripWS_ne_nil_of_headNonWS _ hrhead
          have hassoc : renderBlock i seg t ++
              '\n' :: '\n' :: buildSrtGo (i + 1) (s2 :: ss2) (t2 :: ts2) =
              (renderBlock i seg t ++ ['\n', '\n']) ++
                buildSrtGo (i + 1) (s2 :: ss2) (t2 :: ts2) := by
            simp
          have hstrip : stripWS (renderBlock i seg t ++
              '\n' :: '\n' :: buildSrtGo (i + 1) (s2 :: ss2) (t2 :: ts2)) =
              renderBlock i seg t ++
                '\n' :: '\n' :: stripWS (buildSrtGo (i + 1) (s2 :: ss2) (t2 :: ts2)) := by
            rw [stripWS, lstripWS_eq_self _ hwhole, hassoc,
              rstripWS_append_of_ne_nil _ _ hrne]
            rw [stripWS, lstripWS_eq_self _ hrhead]
            simp
          rw [hstrip, splitOnNN_renderBlock_cons i seg t _ htnl htne,
            ih (t2 :: ts2) (i + 1) hlen2 hgood2 (by simp)]

theorem fromSrtGo_cons_eval (orig : List Segment) (blks : List (List Char)) (i : ℕ)
    (seg : Segment) (t : List Char) (hgt : goodText t)
    (hi : orig[i]? = some seg) :
    fromSrtGo orig (renderBlock i seg t :: blks) i =
      match fromSrtGo orig blks (i + 1) with
      | .ok rest => .ok (remapSeg seg t :: rest)
      | .error e => .error e := by
  obtain ⟨htne, htnl, hth, htr⟩ := hgt
  have hstrip : stripWS (renderBlock i seg t) = renderBlock i seg t :=
    stripWS_eq_self _ (renderBlock_headNonWS i seg t)
      (renderBlock_reverse_headNonWS i seg t htne htr)
  have hlines : splitOnNL (stripWS (renderBlock i seg t)) =
      [natToChars (i + 1),
        _format_time seg.start ++ (arrowSep ++ _format_time seg.«end»), t] := by
    rw [hstrip, renderBlock]
    exact splitOnNL_block _ _ _ (natToChars_no_nl _) (tsLine_no_nl _ _) htnl
  have harrow : splitOnArrow
      (_format_time seg.start ++ (arrowSep ++ _format_time seg.«end»)) =
      [_format_time seg.start, _format_time seg.«end»] :=
    splitOnArrow_two _ _ (format_time_no_space _) (format_time_no_space _)
  have hilt : i < orig.length := by
    by_contra h
    rw [List.getElem?_eq_none (by omega)] at hi
    exact Option.noConfusion hi
  have hgetD : orig.getD i ⟨0, 0, []⟩ = seg := by
    rw [List.getD_eq_getElem?_getD, hi]
    rfl
  have hnewText : stripWS (List.intercalate [' ']
      ([natToChars (i + 1),
        _format_time seg.start ++ (arrowSep ++ _format_time seg.«end»), t].drop 2)) = t := by
    show stripWS (List.intercalate [' '] [t]) = t
    rw [intercalate_space_singleton]
    exact stripWS_eq_self t hth htr
  simp only [fromSrtGo, hlines, hnewText, if_pos hilt, hgetD, List.length_cons,
    List.length_nil, List.getD_cons_succ, List.getD_cons_zero]
  rw [if_neg (by norm_num), harrow]
  rfl

theorem fromSrtGo_aligned (orig : List Segment) :
    ∀ (rest : List Segment) (texts : List (List Char)) (i : ℕ),
      orig.drop i = rest →
      texts.length = rest.length →
      (∀ t ∈ texts, goodText t) →
      fromSrtGo orig (blockList i rest texts) i =
        .ok (List.zipWith remapSeg rest texts) := by
  intro rest
  induction rest with
  | nil =>
    intro texts i _ _ _
    cases texts <;> rfl
  | cons seg ss ih =>
    intro texts i hdrop hlen hgood
    cases texts with
    | nil => simp at hlen
    | cons t ts =>
      have hi : orig[i]? = some seg := by
        have h0 : (orig.drop i)[0]? = some seg := by rw [hdrop]; simp
        rw [List.getElem?_drop] at h0
        simpa using h0
      have hdrop2 : orig.drop (i + 1) = ss := by
        have h2 := congrArg List.tail hdrop
        rwa [List.tail_drop] at h2
      show fromSrtGo orig (renderBlock i seg t :: blockList (i + 1) ss ts) i = _
      rw [fromSrtGo_cons_eval orig _ i seg t (hgood t (List.mem_cons_self t ts)) hi,
        ih ts (i + 1) hdrop2 (by simpa using hlen)
          (fun x hx => hgood x (List.mem_cons_of_mem t hx))]
      rfl

theorem goodText_textOf (seg : Segment) (hne : textOf seg ≠ [])
    (hw : ∀ w ∈ seg.words, '\n' ∉ w.word) : goodText (textOf seg) := by
  obtain ⟨h1, h2⟩ := textOf_strip_props seg hne
  exact ⟨hne, textOf_no_nl seg hw, h1, h2⟩

theorem toSrtGo_eq_buildSrtGo :
    ∀ (segs : List Segment) (i : ℕ),
      (∀ seg ∈ segs, textOf seg ≠ []) →
      toSrtGo segs i = buildSrtGo i segs (segs.map textOf) := by
  intro segs
  induction segs with
  | nil => intro i _; rfl
  | cons seg ss ih =>
    intro i hne
    have h1 : textOf seg ≠ [] := hne seg (List.mem_cons_self seg ss)
    show (if textOf seg = [] then toSrtGo ss (i + 1)
      else natToChars (i + 1) ++ '\n' ::
        (_format_time seg.start ++ arrowSep ++ _format_time seg.«end») ++ '\n' ::
        (textOf seg ++ '\n' :: '\n' :: toSrtGo ss (i + 1))) =
      buildSrtGo i (seg :: ss) ((seg :: ss).map textOf)
    rw [if_neg h1, ih (i + 1) (fun s hs => hne s (List.mem_cons_of_mem seg hs))]
    simp [buildSrtGo, renderBlock, List.append_assoc]

theorem fromSrtGo_short_skip (orig : List Segment) (blk : List Char)
    (blks : List (List Char)) (i : ℕ)
    (h : (splitOnNL (stripWS blk)).length < 3) :
    fromSrtGo orig (blk :: blks) i = fromSrtGo orig blks (i + 1) := by
  simp only [fromSrtGo, if_pos h]

theorem fromSrtGo_cons_view (orig : List Segment) (blk : List Char)
    (blks : List (List Char)) (i : ℕ) (idx ts : List Char) (rest : List (List Char))
    (a b : List Char)
    (hl : splitOnNL (stripWS blk) = idx :: ts :: rest)
    (harrow : splitOnArrow ts = [a, b]) :
    fromSrtGo orig (blk :: blks) i =
      if rest.length = 0 then fromSrtGo orig blks (i + 1)
      else if i < orig.length then
        match fromSrtGo orig blks (i + 1) with
        | .ok r => .ok (remapSeg (orig.getD i ⟨0, 0, []⟩)
            (stripWS (List.intercalate [' '] rest)) :: r)
        | .error e => .error e
      else fromSrtGo orig blks (i + 1) := by
  by_cases hr : rest.length = 0
  · have h3 : (splitOnNL (stripWS blk)).length < 3 := by
      rw [hl]
      simp [hr]
    rw [fromSrtGo_short_skip orig blk blks i h3, if_pos hr]
  · rw [if_neg hr]
    have h3 : ¬ (idx :: ts :: rest).length < 3 := by
      simp only [List.length_cons]
      omega
    simp only [fromSrtGo, hl, if_neg h3, List.getD_cons_succ, List.getD_cons_zero, harrow]
    rfl

theorem fromSrtGo_benign_ok (orig : List Segment) :
    ∀ (blks : List (List Char)) (i : ℕ),
      (∀ blk ∈ blks, blockBenign blk) →
      ∃ res, fromSrtGo orig blks i = .ok res := by
  intro blks
  induction blks with
  | nil => intro i _; exact ⟨[], rfl⟩
  | cons blk bs ih =>
    intro i hb
    obtain ⟨res, hres⟩ := ih (i + 1) (fun x hx => hb x (List.mem_cons_of_mem blk hx))
    by_cases hshort : (splitOnNL (stripWS blk)).length < 3
    · exact ⟨res, by rw [fromSrtGo_short_skip orig blk bs i hshort, hres]⟩
    · rcases hb blk (List.mem_cons_self blk bs) with hs | ⟨a, b, harrow⟩
      · exact absurd hs hshort
      · obtain ⟨idx, ts, rest, hl⟩ :
            ∃ idx ts rest, splitOnNL (stripWS blk) = idx :: ts :: rest := by
          cases hsp : splitOnNL (stripWS blk) with
          | nil => exact absurd (hsp ▸ (by norm_num : ([] : List (List Char)).length < 3)) hshort
          | cons x xs =>
            cases xs with
            | nil => exact absurd (hsp ▸ (by norm_num : [x].length < 3)) hshort
            | cons y ys => exact ⟨x, y, ys, rfl⟩
        have harrow2 : splitOnArrow ts = [a, b] := by
          rw [hl] at harrow
          simpa using harrow
        have hrest : ¬ rest.length = 0 := by
          rw [hl] at hshort
          simp only [List.length_cons] at hshort
          omega
        rw [fromSrtGo_cons_view orig blk bs i idx ts rest a b hl harrow2, if_neg hrest, hres]
        by_cases hi : i < orig.length
        · refine ⟨remapSeg (orig.getD i ⟨0, 0, []⟩)
            (stripWS (List.intercalate [' '] rest)) :: res, ?_⟩
          rw [if_pos hi]
        · exact ⟨res, by rw [if_neg hi]⟩

theorem fromSrtGo_tsOnlyDiff (orig : List Segment) (blks1 blks2 : List (List Char))
    (h : List.Forall₂ tsOnlyDiff blks1 blks2) :
    ∀ i, fromSrtGo orig blks1 i = fromSrtGo orig blks2 i := by
  induction h with
  | nil => intro i; rfl
  | cons hab htail ih =>
    intro i
    obtain ⟨idx, ts1, ts2, rest, a1, e1, a2, e2, hl1, hl2, ha1, ha2⟩ := hab
    rw [fromSrtGo_cons_view orig _ _ i idx ts1 rest a1 e1 hl1 ha1,
      fromSrtGo_cons_view orig _ _ i idx ts2 rest a2 e2 hl2 ha2, ih (i + 1)]

theorem remapWords_length (ws : List Word) (tks : List (List Char)) :
    (remapWords ws tks).length = ws.length := by
  simp [remapWords]

theorem remapWords_getD (ws : List Word) (tks : List (List Char)) (j : ℕ)
    (hj : j < ws.length) :
    (remapWords ws tks).getD j defaultWord =
      { word := if j < tks.length then tks.getD j [] else (ws.getD j defaultWord).word,
        start := (ws.getD j defaultWord).start,
        «end» := (ws.getD j defaultWord).«end» } := by
  rw [remapWords, List.getD_eq_getElem?_getD, List.getElem?_map, List.getElem?_range hj]
  rfl

theorem roundTrip_edited (ts : List Segment) (texts : List (List Char))
    (hts : ts ≠ []) (hlen : texts.length = ts.length)
    (hgood : ∀ t ∈ texts, goodText t) :
    from_srt (buildSrt ts texts) ts = .ok (List.zipWith remapSeg ts texts) := by
  rw [from_srt, buildSrt, stripWS_splitOnNN_buildSrtGo ts texts 0 hlen hgood hts,
    fromSrtGo_aligned ts ts texts 0 (List.drop_zero ts) hlen hgood]

theorem roundTrip_unmodified (ts : List Segment) (hts : ts ≠ [])
    (hne : ∀ seg ∈ ts, textOf seg ≠ [])
    (hw : ∀ seg ∈ ts, ∀ w ∈ seg.words, '\n' ∉ w.word) :
    from_srt (to_srt ts) ts = .ok (List.zipWith remapSeg ts (ts.map textOf)) := by
  rw [to_srt, toSrtGo_eq_buildSrtGo ts 0 hne]
  refine roundTrip_edited ts (ts.map textOf) hts (by simp) ?_
  intro t ht
  rw [List.mem_map] at ht
  obtain ⟨seg, hseg, rfl⟩ := ht
  exact goodText_textOf seg (hne seg hseg) (hw seg hseg)

theorem fromSrtGo_bad_arrow (orig : List Segment) (blk : List Char)
    (blks : List (List Char)) (i : ℕ) (idx ts : List Char) (rest : List (List Char))
    (hl : splitOnNL (stripWS blk) = idx :: ts :: rest) (hrest : rest ≠ [])
    (hbad : ∀ a b, splitOnArrow ts ≠ [a, b]) :
    fromSrtGo orig (blk :: blks) i = .error srtUnpackError := by
  have h3 : ¬ (idx :: ts :: rest).length < 3 := by
    cases rest with
    | nil => exact absurd rfl hrest
    | cons r rs => simp only [List.length_cons]; omega
  cases hsa : splitOnArrow ts with
  | nil => simp only [fromSrtGo, hl, if_neg h3, List.getD_cons_succ, List.getD_cons_zero, hsa]
  | cons a l =>
    cases l with
    | nil => simp only [fromSrtGo, hl, if_neg h3, List.getD_cons_succ, List.getD_cons_zero, hsa]
    | cons b l2 =>
      cases l2 with
      | nil => exact absurd hsa (hbad a b)
      | cons c l3 =>
        simp only [fromSrtGo, hl, if_neg h3, List.getD_cons_succ, List.getD_cons_zero, hsa]

/-- Claim C8, as frozen, is false on the code: `to_srt` skips a segment
whose joined word text is empty but still consumes the running index, while
`from_srt` re-aligns blocks to the original transcript purely by position.
On `C8ts` (first segment wordless, second segment holding the word "w"
timed 2..3) the round trip returns only the wordless first segment: the
second segment's word text and timings (2, 3) are gone, so the round trip
does not reproduce the original per-word timings. -/
theorem C8_counterexample :
    from_srt (to_srt C8ts) C8ts = .ok [⟨0, 1, []⟩] ∧
    C8ts.map (fun seg => seg.words.map (fun w => (w.start, w.«end»))) = [[], [(2, 3)]] ∧
    [(⟨0, 1, []⟩ : Segment)].map
      (fun seg => seg.words.map (fun w => (w.start, w.«end»))) = [[]] :=
  ⟨rfl, rfl, rfl⟩

/-- C8: for a transcript in which every segment's joined word text is
nonempty (and newline-free, as real word tokens are), the export/import
round trip holds exactly as claimed: re-importing the unmodified text gives
segment `k` = `remapSeg` of original segment `k` with its own text, and
re-importing any edited texts (one good line per segment) gives
`remapSeg` of original segment `k` with edited line `k`; `remapSeg` keeps
the segment timings, keeps the original word count, gives word `j` the
timing of original word `j` always, and gives it the text of edited token
`j` when one exists (otherwise the original text) — so equal word counts
substitute all text and keep all timings, fewer edited words leave the
trailing originals untouched, and extra edited words are dropped. -/
theorem C8_roundtrip_behavior (ts : List Segment) (edited : List (List Char))
    (hts : ts ≠ [])
    (hne : ∀ seg ∈ ts, textOf seg ≠ [])
    (hw : ∀ seg ∈ ts, ∀ w ∈ seg.words, '\n' ∉ w.word)
    (hlen : edited.length = ts.length)
    (hgood : ∀ t ∈ edited, goodText t) :
    from_srt (to_srt ts) ts = .ok (List.zipWith remapSeg ts (ts.map textOf)) ∧
    from_srt (buildSrt ts edited) ts = .ok (List.zipWith remapSeg ts edited) ∧
    (∀ seg txt, (remapSeg seg txt).start = seg.start ∧
      (remapSeg seg txt).«end» = seg.«end» ∧
      (remapSeg seg txt).words.length = seg.words.length) ∧
    (∀ seg txt j, j < seg.words.length →
      ((remapSeg seg txt).words.getD j defaultWord).start =
        (seg.words.getD j defaultWord).start ∧
      ((remapSeg seg txt).words.getD j defaultWord).«end» =
        (seg.words.getD j defaultWord).«end» ∧
      ((remapSeg seg txt).words.getD j defaultWord).word =
        (if j < (pySplitWS txt).length then (pySplitWS txt).getD j []
         else (seg.words.getD j defaultWord).word)) := by
  refine ⟨roundTrip_unmodified ts hts hne hw,
    roundTrip_edited ts edited hts hlen hgood, ?_, ?_⟩
  · intro seg txt
    exact ⟨rfl, rfl, remapWords_length _ _⟩
  · intro seg txt j hj
    rw [show (remapSeg seg txt).words = remapWords seg.words (pySplitWS txt) from rfl,
      remapWords_getD seg.words (pySplitWS txt) j hj]
    exact ⟨rfl, rfl, rfl⟩

/-- Witness for `C8_roundtrip_behavior` at a one-segment transcript. -/
theorem C8_witness :
    ([(⟨0, 1, [⟨['h', 'i'], 0, 1⟩]⟩ : Segment)] ≠ []) ∧
    from_srt (to_srt [(⟨0, 1, [⟨['h', 'i'], 0, 1⟩]⟩ : Segment)])
        [(⟨0, 1, [⟨['h', 'i'], 0, 1⟩]⟩ : Segment)] =
      .ok (List.zipWith remapSeg [(⟨0, 1, [⟨['h', 'i'], 0, 1⟩]⟩ : Segment)]
        ([(⟨0, 1, [⟨['h', 'i'], 0, 1⟩]⟩ : Segment)].map textOf)) :=
  ⟨by decide,
    (C8_roundtrip_behavior [(⟨0, 1, [⟨['h', 'i'], 0, 1⟩]⟩ : Segment)] [['y', 'o']]
      (by decide) (by decide) (by decide) (by decide)
      (by
        intro t ht
        rw [List.mem_singleton] at ht
        subst ht
        exact ⟨by decide, by decide, rfl, rfl⟩)).1⟩

/-- Claim C9, as frozen, is false on the code: a block of three or more
lines whose timestamps line does not split into exactly two parts around
" --> " makes the unguarded tuple unpacking raise, poisoning the whole
run — on the single malformed block "1\nbad\nt" `from_srt` returns the
`ValueError` instead of a transcript, so a malformed block can be fatal. -/
theorem C9_counterexample :
    from_srt ('1' :: '\n' :: 'b' :: 'a' :: 'd' :: '\n' :: 't' :: [])
      [⟨0, 1, []⟩] = .error srtUnpackError :=
  rfl

/-- C9: what the import actually does with malformed blocks: a block of
fewer than three lines is skipped (it only advances the index) and is
never fatal; when every block is benign (short, or timestamps line
splitting into exactly two parts) the import returns a transcript; but a
block of three or more lines whose timestamps line does not split into
exactly two parts aborts the entire import with the `ValueError`. -/
theorem C9_malformed_block_handling (orig : List Segment) :
    (∀ blk blks i, (splitOnNL (stripWS blk)).length < 3 →
      fromSrtGo orig (blk :: blks) i = fromSrtGo orig blks (i + 1)) ∧
    (∀ blks i, (∀ b ∈ blks, blockBenign b) →
      ∃ res, fromSrtGo orig blks i = .ok res) ∧
    (∀ blk blks i idx ts rest, splitOnNL (stripWS blk) = idx :: ts :: rest →
      rest ≠ [] → (∀ a b, splitOnArrow ts ≠ [a, b]) →
      fromSrtGo orig (blk :: blks) i = .error srtUnpackError) :=
  ⟨fun blk blks i h => fromSrtGo_short_skip orig blk blks i h,
   fun blks i h => fromSrtGo_benign_ok orig blks i h,
   fun blk blks i idx ts rest hl hr hb =>
     fromSrtGo_bad_arrow orig blk blks i idx ts rest hl hr hb⟩

/-- Witness for `C9_malformed_block_handling`: a one-line block is skipped
without failing, an all-benign block list imports to a transcript, and a
three-line block with a malformed timestamps line is fatal. -/
theorem C9_witness :
    (splitOnNL (stripWS ('j' :: 'u' :: 'n' :: 'k' :: []))).length < 3 ∧
    fromSrtGo [⟨0, 1, []⟩] [('j' :: 'u' :: 'n' :: 'k' :: [])] 0 =
      fromSrtGo [⟨0, 1, []⟩] [] 1 ∧
    (∃ res, fromSrtGo [⟨0, 1, []⟩] [('j' :: 'u' :: 'n' :: 'k' :: [])] 0 = .ok res) ∧
    fromSrtGo [⟨0, 1, []⟩]
      [('1' :: '\n' :: 'b' :: 'a' :: 'd' :: '\n' :: 't' :: [])] 0 =
      .error srtUnpackError := by
  obtain ⟨h1, h2, h3⟩ := C9_malformed_block_handling [⟨0, 1, []⟩]
  refine ⟨by decide, h1 _ [] 0 (by decide), h2 _ 0 ?_,
    h3 _ [] 0 ['1'] ('b' :: 'a' :: 'd' :: []) [['t']] rfl (by simp) ?_⟩
  · intro b hb
    rw [List.mem_singleton] at hb
    subst hb
    left
    decide
  · intro a b h
    rw [show splitOnArrow ('b' :: 'a' :: 'd' :: []) = [['b', 'a', 'd']] from rfl] at h
    simp at h

/-- C10: the import ignores the timestamp values of the captions text.
For any original transcript and any two captions strings whose block lists
line up so that each pair of blocks has the same index line and the same
text lines and differs at most in the timestamps line — each timestamps
line still splitting into exactly two parts around " --> " — the import
returns identical results, because every returned segment's start, end and
word timings come solely from the positionally matched original segment
(the parsed timestamp strings are never used). -/
theorem C10_timestamps_ignored (orig : List Segment) (s1 s2 : List Char)
    (h : List.Forall₂ tsOnlyDiff (splitOnNN (stripWS s1)) (splitOnNN (stripWS s2))) :
    from_srt s1 orig = from_srt s2 orig := by
  rw [from_srt, from_srt]
  exact fromSrtGo_tsOnlyDiff orig _ _ h 0

/-- Witness for `C10_timestamps_ignored`: two one-block captions strings
with different timestamps lines import identically. -/
theorem C10_witness :
    List.Forall₂ tsOnlyDiff
      (splitOnNN (stripWS
        ('1' :: '\n' :: '0' :: ' ' :: '-' :: '-' :: '>' :: ' ' :: '1' :: '\n' :: 'w' :: [])))
      (splitOnNN (stripWS
        ('1' :: '\n' :: '2' :: ' ' :: '-' :: '-' :: '>' :: ' ' :: '3' :: '\n' :: 'w' :: []))) ∧
    from_srt
      ('1' :: '\n' :: '0' :: ' ' :: '-' :: '-' :: '>' :: ' ' :: '1' :: '\n' :: 'w' :: [])
      [⟨5, 6, [⟨['o'], 5, 6⟩]⟩] =
    from_srt
      ('1' :: '\n' :: '2' :: ' ' :: '-' :: '-' :: '>' :: ' ' :: '3' :: '\n' :: 'w' :: [])
      [⟨5, 6, [⟨['o'], 5, 6⟩]⟩] := by
  have hf : List.Forall₂ tsOnlyDiff
      (splitOnNN (stripWS
        ('1' :: '\n' :: '0' :: ' ' :: '-' :: '-' :: '>' :: ' ' :: '1' :: '\n' :: 'w' :: [])))
      (splitOnNN (stripWS
        ('1' :: '\n' :: '2' :: ' ' :: '-' :: '-' :: '>' :: ' ' :: '3' :: '\n' :: 'w' :: []))) := by
    show List.Forall₂ tsOnlyDiff
      [('1' :: '\n' :: '0' :: ' ' :: '-' :: '-' :: '>' :: ' ' :: '1' :: '\n' :: 'w' :: [])]
      [('1' :: '\n' :: '2' :: ' ' :: '-' :: '-' :: '>' :: ' ' :: '3' :: '\n' :: 'w' :: [])]
    exact List.Forall₂.cons
      ⟨['1'], ['0', ' ', '-', '-', '>', ' ', '1'], ['2', ' ', '-', '-', '>', ' ', '3'],
        [['w']], ['0'], ['1'], ['2'], ['3'], rfl, rfl, rfl, rfl⟩
      List.Forall₂.nil
  exact ⟨hf, C10_timestamps_ignored [⟨5, 6, [⟨['o'], 5, 6⟩]⟩] _ _ hf⟩
